import Mathlib

/-!
Verification of the scikit-activeml core subsystems (stream verification-latency
delay wrappers, the BADGE pool strategy, and the fixed budget manager) against
their natural-language specification.  All machine floats are modelled as
rationals (`ℚ`); numpy arrays are modelled as Lean lists.  Each definition is a
shallow embedding of the corresponding Python function, preserving its control
flow and the order of its effects.
-/

namespace Skactiveml

/-! ## FixedBudget (src/skactiveml/stream/budget_manager/_fixed_budget.py)

`FixedBudget` keeps two persisted counters, `observed_instances` and
`sampled_instances`.  `sample` walks over the utilities, increments
`observed_instances` for each, decides sampling from `is_budget_left` and the
utility threshold `1 - budget`, and restores both counters afterwards when
`simulate=True`.
-/

/-- Persisted state of the `FixedBudget` budget manager: the two counters
`observed_instances` and `sampled_instances`. -/
structure FixedBudgetState where
  observed : ℕ
  sampled : ℕ
deriving DecidableEq, Repr

/-- Embedding of `FixedBudget.is_budget_left`:
`observed_instances * budget - sampled_instances >= 1`. -/
def isBudgetLeft (budget : ℚ) (st : FixedBudgetState) : Bool :=
  decide ((st.observed : ℚ) * budget - (st.sampled : ℚ) ≥ 1)

/-- One iteration of the loop in `FixedBudget.sample`, the sampling decision:
after `observed_instances` is incremented, the instance is sampled when budget
is left and the utility reaches `1 - budget`. -/
def fixedBudgetFlag (budget : ℚ) (st : FixedBudgetState) (u : ℚ) : Bool :=
  isBudgetLeft budget ⟨st.observed + 1, st.sampled⟩ && decide (u ≥ 1 - budget)

/-- One iteration of the loop in `FixedBudget.sample`, the counter update:
`observed_instances += 1` and `sampled_instances += sampled[i]`. -/
def fixedBudgetNext (budget : ℚ) (st : FixedBudgetState) (u : ℚ) : FixedBudgetState :=
  ⟨st.observed + 1, st.sampled + (if fixedBudgetFlag budget st u then 1 else 0)⟩

/-- The loop of `FixedBudget.sample`: returns the per-instance `sampled` flags
and the counter state after the loop. -/
def fixedBudgetLoop (budget : ℚ) : FixedBudgetState → List ℚ → List Bool × FixedBudgetState
  | st, [] => ([], st)
  | st, u :: rest =>
      (fixedBudgetFlag budget st u ::
        (fixedBudgetLoop budget (fixedBudgetNext budget st u) rest).1,
       (fixedBudgetLoop budget (fixedBudgetNext budget st u) rest).2)

/-- `np.where(sampled)[0]`: the positions holding `true`. -/
def trueIndices (flags : List Bool) : List ℕ :=
  (List.range flags.length).filter (fun i => flags.getD i false)

/-- Embedding of `FixedBudget.sample` (without the optional
`return_budget_left` output): runs the loop, restores the initial counters
when `simulate` is set, and returns the sampled indices together with the
final persisted counter state. -/
def fixedBudgetSample (budget : ℚ) (utilities : List ℚ) (simulate : Bool)
    (st : FixedBudgetState) : List ℕ × FixedBudgetState :=
  let r := fixedBudgetLoop budget st utilities
  (trueIndices r.1, if simulate then st else r.2)

/-- Number of `true` entries in a list of flags. -/
def countTrue : List Bool → ℕ
  | [] => 0
  | b :: r => (if b then 1 else 0) + countTrue r

theorem fixedBudgetLoop_length (budget : ℚ) :
    ∀ (us : List ℚ) (st : FixedBudgetState),
      (fixedBudgetLoop budget st us).1.length = us.length := by
  intro us
  induction us with
  | nil => intro st; rfl
  | cons u rest ih =>
      intro st
      simp only [fixedBudgetLoop, List.length_cons]
      rw [ih]

theorem fixedBudgetLoop_observed (budget : ℚ) :
    ∀ (us : List ℚ) (st : FixedBudgetState),
      (fixedBudgetLoop budget st us).2.observed = st.observed + us.length := by
  intro us
  induction us with
  | nil => intro st; simp [fixedBudgetLoop]
  | cons u rest ih =>
      intro st
      simp only [fixedBudgetLoop, List.length_cons]
      rw [ih]
      simp only [fixedBudgetNext]
      omega

theorem fixedBudgetLoop_sampled (budget : ℚ) :
    ∀ (us : List ℚ) (st : FixedBudgetState),
      (fixedBudgetLoop budget st us).2.sampled =
        st.sampled + countTrue (fixedBudgetLoop budget st us).1 := by
  intro us
  induction us with
  | nil => intro st; simp [fixedBudgetLoop, countTrue]
  | cons u rest ih =>
      intro st
      simp only [fixedBudgetLoop, countTrue]
      rw [ih]
      simp only [fixedBudgetNext]
      omega

theorem fixedBudgetLoop_flag (budget : ℚ) :
    ∀ (us : List ℚ) (st : FixedBudgetState) (i : ℕ), i < us.length →
      (fixedBudgetLoop budget st us).1.getD i false =
        (isBudgetLeft budget
            ⟨st.observed + i + 1,
             st.sampled + countTrue ((fixedBudgetLoop budget st us).1.take i)⟩ &&
          decide (us.getD i 0 ≥ 1 - budget)) := by
  intro us
  induction us with
  | nil => intro st i h; simp at h
  | cons u rest ih =>
      intro st i h
      match i with
      | 0 =>
          simp only [fixedBudgetLoop, List.getD_cons_zero, List.take_zero, countTrue,
            Nat.add_zero, fixedBudgetFlag]
      | Nat.succ j =>
          have hj : j < rest.length := by
            simp only [List.length_cons] at h; omega
          simp only [fixedBudgetLoop, List.getD_cons_succ, List.take_succ_cons, countTrue]
          rw [ih (fixedBudgetNext budget st u) j hj]
          have hstate :
              (⟨(fixedBudgetNext budget st u).observed + j + 1,
                 (fixedBudgetNext budget st u).sampled +
                   countTrue
                     ((fixedBudgetLoop budget (fixedBudgetNext budget st u) rest).1.take j)⟩ :
                FixedBudgetState) =
              ⟨st.observed + (j + 1) + 1,
                st.sampled +
                  ((if fixedBudgetFlag budget st u then 1 else 0) +
                    countTrue
                      ((fixedBudgetLoop budget (fixedBudgetNext budget st u) rest).1.take j))⟩ := by
            simp only [fixedBudgetNext, FixedBudgetState.mk.injEq]
            omega
          rw [hstate]

theorem mem_trueIndices (flags : List Bool) (i : ℕ) :
    i ∈ trueIndices flags ↔ i < flags.length ∧ flags.getD i false = true := by
  simp [trueIndices, List.mem_filter, List.mem_range]

theorem trueIndices_length (flags : List Bool) :
    (trueIndices flags).length = countTrue flags := by
  rw [trueIndices, ← List.countP_eq_length_filter]
  induction flags with
  | nil => rfl
  | cons b r ih =>
      rw [List.length_cons, List.range_succ_eq_map, List.countP_cons, List.countP_map]
      simp only [List.getD_cons_zero, Function.comp]
      have hgd : ∀ i : ℕ, (b :: r).getD (i + 1) false = r.getD i false := by
        intro i; rfl
      rw [countTrue]
      have : List.countP ((fun i => (b :: r).getD i false) ∘ Nat.succ) (List.range r.length)
          = List.countP (fun i => r.getD i false) (List.range r.length) := by
        apply List.countP_congr
        intro i _
        rfl
      rw [this, ih]
      cases b <;> simp <;> omega

/-- C10: `FixedBudget.sample` returns exactly the indices whose advanced
budget check and utility threshold both pass; `simulate=True` returns the same
indices as `simulate=False` and restores both counters; `simulate=False`
advances `observed_instances` by the number of utilities and
`sampled_instances` by the number of returned indices.  The counter state at
position `i` is spelled out: `observed_instances` has been advanced over
positions `0..i` and `sampled_instances` counts the positions before `i` that
were sampled. -/
theorem fixedBudgetSample_spec (b : ℚ) (hb0 : 0 ≤ b) (hb1 : b ≤ 1)
    (us : List ℚ) (sim : Bool) (st : FixedBudgetState) :
    (∀ i : ℕ, i ∈ (fixedBudgetSample b us sim st).1 ↔
        i < us.length ∧
        (isBudgetLeft b ⟨st.observed + i + 1,
            st.sampled + countTrue ((fixedBudgetLoop b st us).1.take i)⟩ = true ∧
          us.getD i 0 ≥ 1 - b)) ∧
    ((fixedBudgetSample b us true st).1 = (fixedBudgetSample b us false st).1 ∧
      (fixedBudgetSample b us true st).2 = st) ∧
    ((fixedBudgetSample b us false st).2.observed = st.observed + us.length ∧
      (fixedBudgetSample b us false st).2.sampled =
        st.sampled + (fixedBudgetSample b us false st).1.length) := by
  refine ⟨?_, ⟨rfl, rfl⟩, ?_, ?_⟩
  · intro i
    simp only [fixedBudgetSample]
    rw [mem_trueIndices, fixedBudgetLoop_length]
    constructor
    · rintro ⟨hi, hflag⟩
      refine ⟨hi, ?_⟩
      rw [fixedBudgetLoop_flag b us st i hi] at hflag
      rw [Bool.and_eq_true, decide_eq_true_eq] at hflag
      exact hflag
    · rintro ⟨hi, hbl, hu⟩
      refine ⟨hi, ?_⟩
      rw [fixedBudgetLoop_flag b us st i hi, Bool.and_eq_true, decide_eq_true_eq]
      exact ⟨hbl, hu⟩
  · simp only [fixedBudgetSample]
    exact fixedBudgetLoop_observed b us st
  · show (fixedBudgetLoop b st us).2.sampled =
        st.sampled + (trueIndices (fixedBudgetLoop b st us).1).length
    rw [fixedBudgetLoop_sampled b us st, trueIndices_length]

/-- Witness for C10 at a concrete input: budget 1/2, three utilities, zeroed
counters. -/
theorem fixedBudgetSample_spec_witness :
    (fixedBudgetSample (1/2) [1, 1, 0] false ⟨0, 0⟩).2.observed = 0 + 3 :=
  (fixedBudgetSample_spec (1/2) (by norm_num) (by norm_num) [1, 1, 0] false ⟨0, 0⟩).2.2.1

/-! ## get_class_probabilities
(src/skactiveml/stream/verification_latency/_delay_wrapper.py, both
`BaggingDelaySimulationWrapper` and `FuzzyDelaySimulationWrapper`)

`frequencies_w_prior = frequencies + delay_prior` followed by a row-wise
normalisation `frequencies_w_prior / np.sum(frequencies_w_prior, axis=1,
keepdims=True)`.
-/

/-- One row of `get_class_probabilities`: add `delay_prior` to every class
frequency and divide by the row sum (in `ℚ`, division by a zero row sum
yields `0`, mirroring the fact that the Python code has no guard for it). -/
def probabilityRow (delayPrior : ℚ) (row : List ℚ) : List ℚ :=
  let rowP := row.map (fun f => f + delayPrior)
  rowP.map (fun f => f / rowP.sum)

/-- Embedding of `get_class_probabilities` applied to the `predict_freq`
output: one smoothed, normalised row per pending instance. -/
def probabilitiesWPrior (frequencies : List (List ℚ)) (delayPrior : ℚ) : List (List ℚ) :=
  frequencies.map (probabilityRow delayPrior)

theorem sum_map_div (l : List ℚ) (s : ℚ) : (l.map (fun x => x / s)).sum = l.sum / s := by
  induction l with
  | nil => simp
  | cons a r ih => simp [ih, add_div]

/-- C9 counterexample: `delay_prior = 0` passes `_validate_delay_prior`
(`check_scalar` only requires `min_val=0.0`), yet with a pending instance of
zero observed frequency for every class the normalising row sum is exactly
`0`, so the code divides by zero and the output row is not a probability
distribution (in the `ℚ` model it sums to `0`, not `1`). -/
theorem getClassProbabilities_zero_prior_cex :
    (0 : ℚ) ≤ 0 ∧
    (([[(0 : ℚ), 0]].getD 0 []).map (fun f => f + 0)).sum = 0 ∧
    probabilitiesWPrior [[0, 0]] 0 = [[0, 0]] ∧
    ¬ ((probabilitiesWPrior [[0, 0]] 0).getD 0 []).sum = 1 := by
  refine ⟨le_refl 0, by norm_num, ?_, ?_⟩ <;>
    simp [probabilitiesWPrior, probabilityRow]

/-- C9 amended: for every `delay_prior > 0` and non-negative frequency matrix
with at least one class per row, `get_class_probabilities` returns one row per
pending instance, every returned row sums to `1` (the normalisation never
divides by zero), and a row with zero observed frequency for every class
yields the prior-only (uniform) distribution. -/
theorem getClassProbabilities_prior_safe (freqs : List (List ℚ)) (delayPrior : ℚ)
    (hp : 0 < delayPrior)
    (hnn : ∀ row ∈ freqs, ∀ x ∈ row, 0 ≤ x)
    (hne : ∀ row ∈ freqs, row ≠ []) :
    (probabilitiesWPrior freqs delayPrior).length = freqs.length ∧
    (∀ row ∈ freqs, (probabilityRow delayPrior row).sum = 1) ∧
    (∀ r ∈ probabilitiesWPrior freqs delayPrior, r.sum = 1) ∧
    (∀ row ∈ freqs, (∀ x ∈ row, x = 0) →
      probabilityRow delayPrior row =
        List.replicate row.length (1 / (row.length : ℚ))) := by
  have hsum : ∀ (row : List ℚ), (row.map (fun f => f + delayPrior)).sum =
      row.sum + row.length * delayPrior := by
    intro row
    induction row with
    | nil => simp
    | cons a r ih =>
        simp only [List.map_cons, List.sum_cons, List.length_cons, ih]
        push_cast
        ring
  have hpos : ∀ row ∈ freqs, 0 < (row.map (fun f => f + delayPrior)).sum := by
    intro row hrow
    rw [hsum row]
    have h0 : 0 ≤ row.sum := List.sum_nonneg (by
      intro x hx
      exact hnn row hrow x hx)
    have hlen : 1 ≤ row.length := by
      cases row with
      | nil => exact absurd rfl (hne [] hrow)
      | cons a r => simp
    have : (1 : ℚ) ≤ (row.length : ℚ) := by exact_mod_cast hlen
    nlinarith
  have hrow1 : ∀ row ∈ freqs, (probabilityRow delayPrior row).sum = 1 := by
    intro row hrow
    simp only [probabilityRow]
    rw [sum_map_div]
    exact div_self (ne_of_gt (hpos row hrow))
  refine ⟨by simp [probabilitiesWPrior], hrow1, ?_, ?_⟩
  · intro r hr
    simp only [probabilitiesWPrior, List.mem_map] at hr
    obtain ⟨row, hrow, rfl⟩ := hr
    exact hrow1 row hrow
  · intro row hrow hz
    have hmap : row.map (fun f => f + delayPrior) =
        List.replicate row.length delayPrior := by
      have hcongr : row.map (fun f => f + delayPrior) = row.map (fun _ => delayPrior) :=
        List.map_congr_left (fun x hx => by rw [hz x hx, zero_add])
      rw [hcongr, List.map_const']
    have hn0 : row.length ≠ 0 := by
      cases row with
      | nil => exact absurd rfl (hne [] hrow)
      | cons a r => simp
    have hn : (row.length : ℚ) ≠ 0 := Nat.cast_ne_zero.mpr hn0
    have hd : delayPrior ≠ 0 := ne_of_gt hp
    simp only [probabilityRow, hmap, List.map_replicate, List.sum_replicate, nsmul_eq_mul]
    congr 1
    rw [div_eq_div_iff (mul_ne_zero hn hd) hn]
    ring

/-- Witness for the amended C9 at a concrete input: one all-zero frequency
row and `delay_prior = 1/2`. -/
theorem getClassProbabilities_prior_safe_witness :
    (probabilitiesWPrior [[0, 0]] (1/2)).length = ([[(0 : ℚ), 0]]).length :=
  (getClassProbabilities_prior_safe [[0, 0]] (1/2) (by norm_num)
    (by intro row hrow x hx
        simp only [List.mem_singleton] at hrow
        subst hrow
        simp only [List.mem_cons, List.mem_singleton, List.not_mem_nil, or_false] at hx
        rcases hx with hx | hx <;> rw [hx])
    (by intro row hrow
        simp only [List.mem_singleton] at hrow
        subst hrow
        simp)).1

/-! ## Pending set and midpoint timestamp
(`BaggingDelaySimulationWrapper.query` and `FuzzyDelaySimulationWrapper.query`)

For candidate `i` the pending set mask is
`map_B_n = acquisitions ∧ (ty >= tX_cand[i]) ∧ (ty < ty_cand[i])`, and the
hypothetical label-arrival time written at the pending positions is
`(np.max([ty, tX]) + tX_cand[i]) / 2`.  `np.max([ty, tX])` stacks the two
equal-length arrays into one matrix and reduces over all of its entries, so it
is the global maximum over every entry of `ty` and `tX` — a scalar, not a
per-instance pairwise maximum. -/

/-- `np.max([ty, tX])`: the global maximum over all entries of both arrays
(`np.max` of an empty array raises; the claims only use non-empty arrays, and
for the empty case we return `0`). -/
def npMaxPair (ty tX : List ℚ) : ℚ :=
  match ty ++ tX with
  | [] => 0
  | a :: r => r.foldl max a

/-- The pending-set mask `map_B_n` of both delay-simulation wrappers:
`np.logical_and(acquisitions, np.logical_and(ty >= tX_cand[i], ty < ty_cand[i]))`. -/
def mapBn (acquisitions : List Bool) (ty : List ℚ) (tXcandI tyCandI : ℚ) : List Bool :=
  List.zipWith (fun a t => a && (decide (tXcandI ≤ t) && decide (t < tyCandI)))
    acquisitions ty

/-- `BaggingDelaySimulationWrapper.query`: `new_ty = np.copy(ty)` followed by
`new_ty[map_B_n] = (np.max([ty, tX]) + tX_cand_current) / 2`. -/
def newTyBagging (ty tX : List ℚ) (mapB : List Bool) (tXcandI : ℚ) : List ℚ :=
  List.zipWith (fun t b => if b then (npMaxPair ty tX + tXcandI) / 2 else t) ty mapB

/-- `FuzzyDelaySimulationWrapper.query`: the scalar
`simulate_ty = (np.max([ty, tX]) + tX_cand_current) / 2`. -/
def fuzzySimulateTy (ty tX : List ℚ) (tXcandI : ℚ) : ℚ :=
  (npMaxPair ty tX + tXcandI) / 2

/-- `FuzzyDelaySimulationWrapper.query`: the `add_ty` list built by the nested
loop over pending instances and classes; every appended entry is the scalar
`simulate_ty`. -/
def fuzzyAddTy (ty tX : List ℚ) (tXcandI : ℚ) (nPending nClasses : ℕ) : List ℚ :=
  (List.range nPending).flatMap
    (fun _ => (List.range nClasses).map (fun _ => fuzzySimulateTy ty tX tXcandI))

/-- C6 counterexample: with `ty = [4, 10]`, `tX = [0, 0]`,
`acquisitions = [True, True]`, `tX_cand[i] = 4` and `ty_cand[i] = 11`, both
instances are pending, and the code assigns both of them the hypothetical
label-arrival time `(np.max([ty, tX]) + 4) / 2 = (10 + 4) / 2 = 7`; the claim's
per-instance midpoint for instance `0` would be
`(max(tX[0], ty[0]) + 4) / 2 = (4 + 4) / 2 = 4 ≠ 7`. -/
theorem midpointTimestamp_cex :
    mapBn [true, true] [4, 10] 4 11 = [true, true] ∧
    newTyBagging [4, 10] [0, 0] (mapBn [true, true] [4, 10] 4 11) 4 = [7, 7] ∧
    (max ((0 : ℚ)) 4 + 4) / 2 = 4 ∧
    ((7 : ℚ) ≠ 4) := by
  refine ⟨?_, ?_, by norm_num, by norm_num⟩
  · rfl
  · norm_num [newTyBagging, mapBn, npMaxPair]

/-- C6 amended: in both delay-simulation wrappers, every pending instance is
assigned the same scalar label-arrival time
`(np.max([ty, tX]) + tX_cand[i]) / 2`, the midpoint between the *global*
maximum over all entries of `tX` and `ty` and the candidate's feature-arrival
time — not a per-instance `max(tX[j], ty[j])`. -/
theorem midpointTimestamp_global (ty tX : List ℚ) (mapB : List Bool) (tXcandI : ℚ)
    (nPending nClasses : ℕ) (j : ℕ) (hlen : mapB.length = ty.length)
    (hj : j < ty.length) (hpend : mapB.getD j false = true) :
    (newTyBagging ty tX mapB tXcandI).getD j 0 = (npMaxPair ty tX + tXcandI) / 2 ∧
    (∀ x ∈ fuzzyAddTy ty tX tXcandI nPending nClasses,
      x = (npMaxPair ty tX + tXcandI) / 2) := by
  constructor
  · have hjz : j < (List.zipWith
        (fun t b => if b then (npMaxPair ty tX + tXcandI) / 2 else t) ty mapB).length := by
      rw [List.length_zipWith, hlen]
      omega
    rw [newTyBagging, List.getD_eq_getElem _ _ hjz, List.getElem_zipWith]
    have hb : mapB[j] = true := by
      rw [← List.getD_eq_getElem mapB false (by omega)]
      exact hpend
    rw [hb]
    simp
  · intro x hx
    simp only [fuzzyAddTy, List.mem_flatMap, List.mem_map, List.mem_range] at hx
    obtain ⟨a, _, b, _, rfl⟩ := hx
    rfl

/-- Witness for the amended C6 at the counterexample input. -/
theorem midpointTimestamp_global_witness :
    (newTyBagging [4, 10] [0, 0] [true, true] 4).getD 0 0 =
      (npMaxPair [4, 10] [0, 0] + 4) / 2 :=
  (midpointTimestamp_global [4, 10] [0, 0] [true, true] 4 1 2 0 rfl
    (by norm_num) rfl).1

/-! ## ForgettingWrapper.query

For each candidate `i` the code computes the boolean mask
`tX_in_A_n = tX >= (ty_cand_current - self.w_train)` and restricts `X`, `tX`,
`y`, `ty`, `acquisitions` and (when given) `sample_weight` with that mask
before delegating to the base strategy. -/

/-- numpy boolean-mask indexing `xs[mask]`: keep the entries whose mask bit is
set, in order. -/
def boolMask {γ : Type} (mask : List Bool) (xs : List γ) : List γ :=
  ((mask.zip xs).filter (fun p => p.1)).map (fun p => p.2)

/-- The window mask `tX_in_A_n = tX >= ty_cand_current - w_train` of
`ForgettingWrapper.query`. -/
def forgettingMask (tX : List ℚ) (tyCandI wTrain : ℚ) : List Bool :=
  tX.map (fun t => decide (tyCandI - wTrain ≤ t))

/-- The restricted per-candidate training view `A_n_*` built by
`ForgettingWrapper.query`. -/
structure ForgettingView where
  AX : List (List ℚ)
  AtX : List ℚ
  Ay : List ℚ
  Aty : List ℚ
  Aacq : List Bool
  Asw : Option (List ℚ)
deriving DecidableEq

/-- Embedding of the view construction in `ForgettingWrapper.query`: all six
arrays are restricted by the same mask `tX >= ty_cand_current - w_train`
(`sample_weight` stays `None` when it was `None`). -/
def forgettingView (X : List (List ℚ)) (y tX ty : List ℚ) (acq : List Bool)
    (sw : Option (List ℚ)) (wTrain tyCandI : ℚ) : ForgettingView :=
  let mask := forgettingMask tX tyCandI wTrain
  ⟨boolMask mask X, boolMask mask tX, boolMask mask y, boolMask mask ty,
   boolMask mask acq, sw.map (boolMask mask)⟩

/-- The positions selected by the window of candidate `i`: exactly those `j`
with `tX[j] >= ty_cand[i] - w_train`. -/
def windowIndices (tX : List ℚ) (tyCandI wTrain : ℚ) : List ℕ :=
  (List.range tX.length).filter (fun j => decide (tyCandI - wTrain ≤ tX.getD j 0))

theorem boolMask_map_eq {γ : Type} (p : ℚ → Bool) (d : γ) :
    ∀ (tX : List ℚ) (ys : List γ), tX.length = ys.length →
      boolMask (tX.map p) ys =
        ((List.range tX.length).filter (fun j => p (tX.getD j 0))).map
          (fun j => ys.getD j d) := by
  intro tX
  induction tX with
  | nil =>
      intro ys h
      cases ys with
      | nil => rfl
      | cons a r => simp at h
  | cons t tX2 ih =>
      intro ys h
      cases ys with
      | nil => simp at h
      | cons y ys2 =>
          have h2 : tX2.length = ys2.length := by
            simp only [List.length_cons] at h; omega
          have hL : boolMask ((t :: tX2).map p) (y :: ys2) =
              (if p t then [y] else []) ++ boolMask (tX2.map p) ys2 := by
            simp only [boolMask, List.map_cons, List.zip_cons_cons, List.filter_cons]
            by_cases hpt : p t
            · simp [hpt]
            · simp [hpt]
          have hmapsucc :
              ((List.range tX2.length).filter (fun j => p (tX2.getD j 0))).map
                  ((fun j => (y :: ys2).getD j d) ∘ Nat.succ) =
              ((List.range tX2.length).filter (fun j => p (tX2.getD j 0))).map
                  (fun j => ys2.getD j d) := by
            apply List.map_congr_left
            intro j _
            rfl
          have hcompf : ((fun j => p ((t :: tX2).getD j 0)) ∘ Nat.succ) =
              (fun j => p (tX2.getD j 0)) := by
            funext j
            rfl
          have hR : ((List.range (t :: tX2).length).filter
                (fun j => p ((t :: tX2).getD j 0))).map (fun j => (y :: ys2).getD j d) =
              (if p t then [y] else []) ++
                ((List.range tX2.length).filter (fun j => p (tX2.getD j 0))).map
                  (fun j => ys2.getD j d) := by
            rw [List.length_cons, List.range_succ_eq_map, List.filter_cons]
            by_cases hpt : p t
            · rw [if_pos (by simpa using hpt), if_pos hpt]
              simp only [List.map_cons, List.getD_cons_zero, List.singleton_append,
                List.filter_map, hcompf, List.map_map, hmapsucc]
            · rw [if_neg (by simpa using hpt), if_neg hpt]
              simp only [List.nil_append, List.filter_map, hcompf, List.map_map, hmapsucc]
          rw [hL, hR, ih ys2 h2]

/-- C5: for every candidate `i`, the training view passed to the base strategy
by `ForgettingWrapper.query` consists exactly of the positions `j` with
`tX[j] >= ty_cand[i] - w_train` (never a position below the threshold, always
every position at or above it), and the features, labels, both arrival-time
arrays, acquisition flags and sample weights are all restricted by this same
mask, in order. -/
theorem forgettingWindow_spec (X : List (List ℚ)) (y tX ty : List ℚ) (acq : List Bool)
    (sw : List ℚ) (wTrain tyCandI : ℚ)
    (hX : X.length = tX.length) (hy : y.length = tX.length)
    (hty : ty.length = tX.length) (hacq : acq.length = tX.length)
    (hsw : sw.length = tX.length) :
    (∀ j : ℕ, j ∈ windowIndices tX tyCandI wTrain ↔
        j < tX.length ∧ tyCandI - wTrain ≤ tX.getD j 0) ∧
    (forgettingView X y tX ty acq (some sw) wTrain tyCandI).AX =
        (windowIndices tX tyCandI wTrain).map (fun j => X.getD j []) ∧
    (forgettingView X y tX ty acq (some sw) wTrain tyCandI).AtX =
        (windowIndices tX tyCandI wTrain).map (fun j => tX.getD j 0) ∧
    (forgettingView X y tX ty acq (some sw) wTrain tyCandI).Ay =
        (windowIndices tX tyCandI wTrain).map (fun j => y.getD j 0) ∧
    (forgettingView X y tX ty acq (some sw) wTrain tyCandI).Aty =
        (windowIndices tX tyCandI wTrain).map (fun j => ty.getD j 0) ∧
    (forgettingView X y tX ty acq (some sw) wTrain tyCandI).Aacq =
        (windowIndices tX tyCandI wTrain).map (fun j => acq.getD j false) ∧
    (forgettingView X y tX ty acq (some sw) wTrain tyCandI).Asw =
        some ((windowIndices tX tyCandI wTrain).map (fun j => sw.getD j 0)) := by
  refine ⟨?_, ?_, ?_, ?_, ?_, ?_, ?_⟩
  · intro j
    simp [windowIndices, List.mem_filter, List.mem_range, and_comm]
  · exact boolMask_map_eq _ [] tX X hX.symm
  · exact boolMask_map_eq _ 0 tX tX rfl
  · exact boolMask_map_eq _ 0 tX y hy.symm
  · exact boolMask_map_eq _ 0 tX ty hty.symm
  · exact boolMask_map_eq _ false tX acq hacq.symm
  · show some (boolMask (forgettingMask tX tyCandI wTrain) sw) = _
    rw [forgettingMask, boolMask_map_eq _ 0 tX sw hsw.symm]
    rfl

/-- Witness for C5 at a concrete input: window `w_train = 3`, candidate
label-arrival time `12`, so only the instance with `tX = 10 >= 9` survives. -/
theorem forgettingWindow_spec_witness :
    (forgettingView [[1], [2]] [5, 6] [0, 10] [0, 10] [true, false] (some [1, 1]) 3 12).AtX =
      (windowIndices [0, 10] 12 3).map (fun j => [(0 : ℚ), 10].getD j 0) :=
  (forgettingWindow_spec [[1], [2]] [5, 6] [0, 10] [0, 10] [true, false] [1, 1] 3 12
    rfl rfl rfl rfl rfl).2.2.1

/-! ## Data validation
(`SingleAnnotStreamBasedQueryStrategyDelayWrapper._validate_X_y_sample_weight`,
`_validate_acquisitions`, `_validate_tX_ty`, `_validate_tX_cand_ty_cand`)

`_validate_tX_ty` runs `check_array(tX, ensure_2d=False)` and
`check_array(ty, ensure_2d=False)` — which accept both 1-D and 2-D numeric
arrays — and then `check_consistent_length(tX, ty)`, which compares only the
first dimensions of `tX` and `ty` with each other, never with `X`.  The same
holds for `tX_cand`/`ty_cand` versus `X_cand`. -/

/-- A numpy array as seen by `check_array(..., ensure_2d=False)`: numeric 1-D,
numeric 2-D, or non-numeric content. -/
inductive NpArr where
  | oneD : List ℚ → NpArr
  | twoD : List (List ℚ) → NpArr
  | nonNumeric : NpArr
deriving DecidableEq

/-- The first dimension of an array, as used by
`sklearn.utils.check_consistent_length`. -/
def NpArr.firstLen : NpArr → ℕ
  | .oneD xs => xs.length
  | .twoD xss => xss.length
  | .nonNumeric => 0

/-- `check_array(t, ensure_2d=False)`: accepts numeric 1-D and 2-D arrays and
rejects non-numeric content.  Note it does NOT reject 2-D input. -/
def checkArrayFlex : NpArr → Bool
  | .nonNumeric => false
  | _ => true

/-- The acquisitions argument: `np.array(acquisitions)` either has dtype bool
or some other dtype. -/
inductive AcqArr where
  | boolArr : List Bool → AcqArr
  | otherArr : List ℚ → AcqArr
deriving DecidableEq

/-- Whether `np.array(acquisitions).dtype == bool`. -/
def AcqArr.isBool : AcqArr → Bool
  | .boolArr _ => true
  | .otherArr _ => false

/-- The distinct error conditions the delay-wrapper validation chain can
raise. -/
inductive DErr where
  | sampleWeightLen
  | xyLen
  | acqType
  | tXtyBad
  | tXtyLen
  | candBad
  | candLen
deriving DecidableEq

/-- Embedding of `_validate_X_y_sample_weight`: `check_consistent_length`
of `sample_weight` against `y` (when `sample_weight` is given) and of `X`
against `y`. -/
def validateXYSampleWeight (X : List (List ℚ)) (y : List ℚ)
    (sw : Option (List ℚ)) : Option DErr :=
  match sw with
  | some s =>
      if s.length ≠ y.length then some .sampleWeightLen
      else if X.length ≠ y.length then some .xyLen
      else none
  | none => if X.length ≠ y.length then some .xyLen else none

/-- Embedding of `_validate_acquisitions`: raise iff the dtype is not bool. -/
def validateAcquisitions (acq : AcqArr) : Option DErr :=
  if acq.isBool then none else some .acqType

/-- Embedding of `_validate_tX_ty`: `check_array(.., ensure_2d=False)` on both
arrays, then `check_consistent_length(tX, ty)` — the lengths are compared
only against each other. -/
def validateTXTy (tX ty : NpArr) : Option DErr :=
  if ¬ (checkArrayFlex tX && checkArrayFlex ty) then some .tXtyBad
  else if tX.firstLen ≠ ty.firstLen then some .tXtyLen
  else none

/-- Embedding of `_validate_tX_cand_ty_cand`. -/
def validateTXCandTyCand (tXc tyc : NpArr) : Option DErr :=
  if ¬ (checkArrayFlex tXc && checkArrayFlex tyc) then some .candBad
  else if tXc.firstLen ≠ tyc.firstLen then some .candLen
  else none

/-- The chain of data checks in
`SingleAnnotStreamBasedQueryStrategyDelayWrapper._validate_data` (in the order
the code runs them), stopping at the first raised error. -/
def delayValidateData (X : List (List ℚ)) (y : List ℚ) (sw : Option (List ℚ))
    (acq : AcqArr) (tX ty tXc tyc : NpArr) : Option DErr :=
  match validateXYSampleWeight X y sw with
  | some e => some e
  | none =>
      match validateAcquisitions acq with
      | some e => some e
      | none =>
          match validateTXTy tX ty with
          | some e => some e
          | none => validateTXCandTyCand tXc tyc

/-- C8 counterexample: `tX` is a 2-D array of first dimension 2 while `X` has
3 rows, yet the validation chain raises no error — the code never compares the
arrival-time arrays against their paired feature matrices and
`ensure_2d=False` accepts 2-D arrays. -/
theorem delayValidate_cex :
    delayValidateData [[1], [1], [1]] [1, 1, 1] none (.boolArr [true, true, true])
        (.twoD [[1], [2]]) (.oneD [3, 4]) (.oneD [5]) (.oneD [6]) = none ∧
    (NpArr.twoD [[1], [2]]).firstLen ≠ ([[(1 : ℚ)], [1], [1]]).length := by
  constructor
  · rfl
  · norm_num [NpArr.firstLen]

/-- C8 amended: the validation chain raises an error exactly when `tX`/`ty`
(resp. `tX_cand`/`ty_cand`) are non-numeric or have unequal first dimensions
*with each other*, when `acquisitions` is not boolean, when `sample_weight` is
given with a length different from `y`, or when `X` and `y` have different
lengths; 1-D shape is not required for the arrival-time arrays and their
lengths are never compared against the feature matrices. -/
theorem delayValidate_spec (X : List (List ℚ)) (y : List ℚ) (sw : Option (List ℚ))
    (acq : AcqArr) (tX ty tXc tyc : NpArr) :
    delayValidateData X y sw acq tX ty tXc tyc = none ↔
      ((∀ s, sw = some s → s.length = y.length) ∧ X.length = y.length ∧
        acq.isBool = true ∧
        checkArrayFlex tX = true ∧ checkArrayFlex ty = true ∧
        tX.firstLen = ty.firstLen ∧
        checkArrayFlex tXc = true ∧ checkArrayFlex tyc = true ∧
        tXc.firstLen = tyc.firstLen) := by
  cases sw with
  | none =>
      by_cases hxy : X.length = y.length <;>
      by_cases hacq : acq.isBool = true <;>
      by_cases h1 : checkArrayFlex tX = true <;>
      by_cases h2 : checkArrayFlex ty = true <;>
      by_cases h3 : tX.firstLen = ty.firstLen <;>
      by_cases h4 : checkArrayFlex tXc = true <;>
      by_cases h5 : checkArrayFlex tyc = true <;>
      by_cases h6 : tXc.firstLen = tyc.firstLen <;>
      simp [delayValidateData, validateXYSampleWeight, validateAcquisitions,
        validateTXTy, validateTXCandTyCand, hxy, hacq, h1, h2, h3, h4, h5, h6]
  | some s =>
      by_cases hs : s.length = y.length <;>
      by_cases hxy : X.length = y.length <;>
      by_cases hacq : acq.isBool = true <;>
      by_cases h1 : checkArrayFlex tX = true <;>
      by_cases h2 : checkArrayFlex ty = true <;>
      by_cases h3 : tX.firstLen = ty.firstLen <;>
      by_cases h4 : checkArrayFlex tXc = true <;>
      by_cases h5 : checkArrayFlex tyc = true <;>
      by_cases h6 : tXc.firstLen = tyc.firstLen <;>
      simp [delayValidateData, validateXYSampleWeight, validateAcquisitions,
        validateTXTy, validateTXCandTyCand, hs, hxy, hacq, h1, h2, h3, h4, h5, h6]

/-! ## Badge.query and _d_probability (src/skactiveml/pool/_badge.py)

The batch loop keeps `query_indicies` (indices into the unlabeled pool mapped
through `unlbld_mapping`) and the list `D_p` of per-round probability vectors.
Round 0 calls `_d_probability(g_x, [])`; round `i > 0` calls
`_d_probability(g_x, [idx_in_unlbld], D_p[i-1])` — only the most recently
selected index, together with the cached vector of the previous round, which
is the *normalised probability* vector (or the all-ones placeholder), not a
distance vector.  When `is_randomized` the index is drawn by
`random_state_.choice(len(g_x))`, uniform over the whole pool; otherwise from
the categorical distribution `d_probas` (which never yields a zero-probability
atom).

The model is parametric in the point type and the distance function `d`; the
source instantiates it with rows of the embedding matrix `g_x` under the
Euclidean metric (`ratDist` below is that metric for one-dimensional
embeddings).  The random draws are supplied by an oracle `draws : ℕ → ℕ`
constrained by `validDraws` to the support the source's samplers can
produce. -/

/-- `pairwise_distances_argmin_min(X=g_x, Y=centers)`: for a pool point `x`,
the distance to its nearest point among `centers`. -/
def minDistTo {α : Type} (d : α → α → ℚ) (centers : List α) (x : α) : ℚ :=
  match centers with
  | [] => 0
  | c :: rest => (rest.map (d x)).foldl min (d x c)

/-- Embedding of `_d_probability(g_x, query_indicies, d_latest)`: ones with
`is_randomized=True` when no index was chosen yet; otherwise the element-wise
minimum of `d_latest` (when given) and the distance to the nearest chosen
point, squared and normalised, falling back to ones/`True` when the squared
sum is exactly zero. -/
def dProbability {α : Type} [Inhabited α] (d : α → α → ℚ) (g_x : List α)
    (queryIndicies : List ℕ) (dLatest : Option (List ℚ)) : List ℚ × Bool :=
  if queryIndicies.isEmpty then (List.replicate g_x.length 1, true)
  else
    let gQuery := queryIndicies.map (fun j => g_x.getD j default)
    let D := g_x.map (minDistTo d gQuery)
    let Dm := match dLatest with
      | none => D
      | some dl => List.zipWith min dl D
    let D2 := Dm.map (fun x => x * x)
    if D2.sum = 0 then (List.replicate g_x.length 1, true)
    else (D2.map (fun x => x / D2.sum), false)

/-- One round of the sampling loop in `Badge.query`: round 0 passes the empty
index list; every later round passes only the most recently selected
`idx_in_unlbld` and the cached `D_p[i-1]`. -/
def badgeRound {α : Type} [Inhabited α] (d : α → α → ℚ) (g_x : List α) :
    Option (ℕ × List ℚ) → List ℚ × Bool
  | none => dProbability d g_x [] none
  | some (idx, dp) => dProbability d g_x [idx] (some dp)

/-- The batch loop state of `Badge.query` after `n` rounds: the list of
selected `idx_in_unlbld` values in round order, and the most recent selected
index paired with the cached probability vector `D_p` of the last round. -/
def badgeSteps {α : Type} [Inhabited α] (d : α → α → ℚ) (g_x : List α)
    (draws : ℕ → ℕ) : ℕ → List ℕ × Option (ℕ × List ℚ)
  | 0 => ([], none)
  | n + 1 =>
      let s := badgeSteps d g_x draws n
      let r := badgeRound d g_x s.2
      (s.1 ++ [draws n], some (draws n, r.1))

/-- The support constraint the two samplers of `Badge.query` obey: when the
round is randomized, `random_state_.choice(len(g_x))` produces any index below
`len(g_x)`; otherwise `stats.rv_discrete(values=(arange, d_probas)).rvs`
produces an index carrying positive probability. -/
def validDraws {α : Type} [Inhabited α] (d : α → α → ℚ) (g_x : List α)
    (draws : ℕ → ℕ) (batch : ℕ) : Prop :=
  ∀ n, n < batch →
    ((badgeRound d g_x (badgeSteps d g_x draws n).2).2 = true →
        draws n < g_x.length) ∧
    ((badgeRound d g_x (badgeSteps d g_x draws n).2).2 = false →
        0 < (badgeRound d g_x (badgeSteps d g_x draws n).2).1.getD (draws n) 0)

/-- The Euclidean distance between one-dimensional embedding vectors. -/
def ratDist (x y : ℚ) : ℚ := |x - y|

/-- C2 counterexample: a pool of two identical embedded points (the
degenerate case: the classifier collapsed, all pairwise distances are zero).
Round 0 is randomized and draws index 0; round 1 finds `D2_sum == 0`, is
randomized as well, and `random_state_.choice(len(g_x))` can return index 0
again — the batch `[0, 0]` repeats an index.  Both draws lie in the support
the source's samplers allow. -/
theorem badgeDistinct_cex :
    (badgeSteps ratDist [(0 : ℚ), 0] (fun _ => 0) 2).1 = [0, 0] ∧
    validDraws ratDist [(0 : ℚ), 0] (fun _ => 0) 2 ∧
    ¬ (badgeSteps ratDist [(0 : ℚ), 0] (fun _ => 0) 2).1.Nodup := by
  have hsel : (badgeSteps ratDist [(0 : ℚ), 0] (fun _ => 0) 2).1 = [0, 0] := by
    norm_num [badgeSteps, badgeRound, dProbability, minDistTo, ratDist, List.replicate]
  refine ⟨hsel, ?_, ?_⟩
  · intro n hn
    interval_cases n
    · exact ⟨fun _ => by norm_num, fun h => absurd h
        (by norm_num [badgeSteps, badgeRound, dProbability, List.replicate])⟩
    · exact ⟨fun _ => by norm_num, fun h => absurd h
        (by norm_num [badgeSteps, badgeRound, dProbability, minDistTo, ratDist, List.replicate])⟩
  · rw [hsel]
    simp

/-- Modelled from the documented contract of `d_latest` in `_d_probability`
("the distance between each data point and its nearest center") and the
spec's description of the round: the direct, non-incremental recomputation of
the selection probabilities — squared distance from every pool point to its
nearest point among ALL previously selected points, normalised, with the same
ones/randomized fallback when the squared sum is zero. -/
def dProbabilityDirect {α : Type} [Inhabited α] (d : α → α → ℚ) (g_x : List α)
    (selected : List ℕ) : List ℚ × Bool :=
  if selected.isEmpty then (List.replicate g_x.length 1, true)
  else
    let centers := selected.map (fun j => g_x.getD j default)
    let D := g_x.map (minDistTo d centers)
    let D2 := D.map (fun x => x * x)
    if D2.sum = 0 then (List.replicate g_x.length 1, true)
    else (D2.map (fun x => x / D2.sum), false)

/-- C3: at the one-dimensional embedding `g_x = [0, 2, 3]` with index 0
selected in round 0, the round-1 vector computed by the code (which passes
`D_p[0] = [1, 1, 1]`, the all-ones placeholder vector, as `d_latest`) is
`[0, 1/2, 1/2]`, while the direct recomputation over all previously selected
points — what the documented contract of `d_latest` prescribes — yields
`[0, 4/13, 9/13]`.  The incremental caching is NOT equivalent to the direct
computation: it min-caps the fresh distances with the cached probabilities. -/
theorem dProbabilityIncremental_bug :
    (badgeRound ratDist [(0 : ℚ), 2, 3]
        (badgeSteps ratDist [(0 : ℚ), 2, 3] (fun _ => 0) 1).2).1 = [0, 1/2, 1/2] ∧
    (dProbabilityDirect ratDist [(0 : ℚ), 2, 3] [0]).1 = [0, 4/13, 9/13] ∧
    ¬ (badgeRound ratDist [(0 : ℚ), 2, 3]
        (badgeSteps ratDist [(0 : ℚ), 2, 3] (fun _ => 0) 1).2).1 =
      (dProbabilityDirect ratDist [(0 : ℚ), 2, 3] [0]).1 := by
  have h1 : (badgeRound ratDist [(0 : ℚ), 2, 3]
      (badgeSteps ratDist [(0 : ℚ), 2, 3] (fun _ => 0) 1).2).1 = [0, 1/2, 1/2] := by
    norm_num [badgeSteps, badgeRound, dProbability, minDistTo, ratDist, List.replicate]
  have h2 : (dProbabilityDirect ratDist [(0 : ℚ), 2, 3] [0]).1 = [0, 4/13, 9/13] := by
    norm_num [dProbabilityDirect, minDistTo, ratDist, List.replicate]
  refine ⟨h1, h2, ?_⟩
  rw [h1, h2]
  norm_num

/-- The cached probability vector `D_p[n]` computed in loop iteration `n` of
`Badge.query`. -/
def badgeP {α : Type} [Inhabited α] (d : α → α → ℚ) (g_x : List α)
    (draws : ℕ → ℕ) (n : ℕ) : List ℚ :=
  (badgeRound d g_x (badgeSteps d g_x draws n).2).1

/-- The squared element-wise minimum of the cached vector and the fresh
distances to the single most recent center, as computed by `_d_probability`
when `Badge.query` calls it in round `n > 0`. -/
def badgeD2 {α : Type} [Inhabited α] (d : α → α → ℚ) (g_x : List α)
    (dl : List ℚ) (j : ℕ) : List ℚ :=
  (List.zipWith min dl (g_x.map (fun x => d x (g_x.getD j default)))).map
    (fun x => x * x)

theorem dProbability_single {α : Type} [Inhabited α] (d : α → α → ℚ)
    (g_x : List α) (j : ℕ) (dl : List ℚ) :
    dProbability d g_x [j] (some dl) =
      (if (badgeD2 d g_x dl j).sum = 0 then (List.replicate g_x.length 1, true)
       else ((badgeD2 d g_x dl j).map (fun x => x / (badgeD2 d g_x dl j).sum),
         false)) := rfl

theorem badgeRound_zero {α : Type} [Inhabited α] (d : α → α → ℚ) (g_x : List α)
    (draws : ℕ → ℕ) :
    badgeRound d g_x (badgeSteps d g_x draws 0).2 =
      (List.replicate g_x.length 1, true) := rfl

theorem badgeRound_succ {α : Type} [Inhabited α] (d : α → α → ℚ) (g_x : List α)
    (draws : ℕ → ℕ) (n : ℕ) :
    badgeRound d g_x (badgeSteps d g_x draws (n + 1)).2 =
      dProbability d g_x [draws n] (some (badgeP d g_x draws n)) := rfl

theorem badgeSteps_sel {α : Type} [Inhabited α] (d : α → α → ℚ) (g_x : List α)
    (draws : ℕ → ℕ) :
    ∀ n, (badgeSteps d g_x draws n).1 = (List.range n).map draws := by
  intro n
  induction n with
  | zero => rfl
  | succ m ih =>
      show (badgeSteps d g_x draws m).1 ++ [draws m] = _
      rw [ih, List.range_succ, List.map_append]
      rfl

theorem badgeD2_length {α : Type} [Inhabited α] (d : α → α → ℚ) (g_x : List α)
    (dl : List ℚ) (j : ℕ) :
    (badgeD2 d g_x dl j).length = min dl.length g_x.length := by
  simp [badgeD2]

theorem badgeD2_nonneg {α : Type} [Inhabited α] (d : α → α → ℚ) (g_x : List α)
    (dl : List ℚ) (j : ℕ) : ∀ x ∈ badgeD2 d g_x dl j, 0 ≤ x := by
  intro x hx
  simp only [badgeD2, List.mem_map] at hx
  obtain ⟨y, _, rfl⟩ := hx
  exact mul_self_nonneg y

theorem badgeD2_sum_pos {α : Type} [Inhabited α] (d : α → α → ℚ) (g_x : List α)
    (dl : List ℚ) (j : ℕ) (h : (badgeD2 d g_x dl j).sum ≠ 0) :
    0 < (badgeD2 d g_x dl j).sum :=
  lt_of_le_of_ne (List.sum_nonneg (badgeD2_nonneg d g_x dl j)) (Ne.symm h)

theorem badgeP_length {α : Type} [Inhabited α] (d : α → α → ℚ) (g_x : List α)
    (draws : ℕ → ℕ) : ∀ n, (badgeP d g_x draws n).length = g_x.length := by
  intro n
  induction n with
  | zero => simp [badgeP, badgeRound_zero]
  | succ m ih =>
      rw [badgeP, badgeRound_succ, dProbability_single]
      by_cases hs : (badgeD2 d g_x (badgeP d g_x draws m) (draws m)).sum = 0
      · simp [hs]
      · simp only [hs, if_false, List.length_map, badgeD2_length, ih, min_self]

theorem badgeP_nonneg {α : Type} [Inhabited α] (d : α → α → ℚ) (g_x : List α)
    (draws : ℕ → ℕ) : ∀ n j, 0 ≤ (badgeP d g_x draws n).getD j 0 := by
  have hmem : ∀ n, ∀ q ∈ badgeP d g_x draws n, 0 ≤ q := by
    intro n
    cases n with
    | zero =>
        intro q hq
        rw [badgeP, badgeRound_zero] at hq
        rw [List.eq_of_mem_replicate hq]
        norm_num
    | succ m =>
        intro q hq
        rw [badgeP, badgeRound_succ, dProbability_single] at hq
        by_cases hs : (badgeD2 d g_x (badgeP d g_x draws m) (draws m)).sum = 0
        · rw [if_pos hs] at hq
          rw [List.eq_of_mem_replicate hq]
          norm_num
        · rw [if_neg hs] at hq
          simp only [List.mem_map] at hq
          obtain ⟨y, hy, rfl⟩ := hq
          exact div_nonneg (badgeD2_nonneg d g_x _ _ y hy)
            (le_of_lt (badgeD2_sum_pos d g_x _ _ hs))
  intro n j
  by_cases hj : j < (badgeP d g_x draws n).length
  · rw [List.getD_eq_getElem _ _ hj]
    exact hmem n _ (List.getElem_mem _)
  · rw [List.getD_eq_default _ _ (by omega)]

theorem validDraws_lt {α : Type} [Inhabited α] (d : α → α → ℚ) (g_x : List α)
    (draws : ℕ → ℕ) (batch : ℕ) (hvalid : validDraws d g_x draws batch) :
    ∀ n, n < batch → draws n < g_x.length := by
  intro n hn
  cases hr : (badgeRound d g_x (badgeSteps d g_x draws n).2).2 with
  | true => exact (hvalid n hn).1 hr
  | false =>
      have hpos := (hvalid n hn).2 hr
      by_contra hge
      have hlen : (badgeP d g_x draws n).length ≤ draws n := by
        rw [badgeP_length]
        omega
      rw [show (badgeRound d g_x (badgeSteps d g_x draws n).2).1 =
            badgeP d g_x draws n from rfl] at hpos
      rw [List.getD_eq_default _ _ hlen] at hpos
      exact absurd hpos (by norm_num)

theorem getD_map_fn {α : Type} [Inhabited α] (f : α → ℚ) (l : List α) (j : ℕ)
    (hj : j < l.length) : (l.map f).getD j 0 = f (l.getD j default) := by
  rw [List.getD_eq_getElem _ _ (by simpa using hj), List.getElem_map,
    List.getD_eq_getElem _ _ hj]

theorem getD_sq (l : List ℚ) (j : ℕ) (hj : j < l.length) :
    (l.map (fun x => x * x)).getD j 0 = l.getD j 0 * l.getD j 0 := by
  rw [List.getD_eq_getElem _ _ (by simpa using hj), List.getElem_map,
    List.getD_eq_getElem _ _ hj]

theorem getD_div (l : List ℚ) (s : ℚ) (j : ℕ) (hj : j < l.length) :
    (l.map (fun x => x / s)).getD j 0 = l.getD j 0 / s := by
  rw [List.getD_eq_getElem _ _ (by simpa using hj), List.getElem_map,
    List.getD_eq_getElem _ _ hj]

theorem getD_zipWith_min (a b : List ℚ) (j : ℕ) (hja : j < a.length)
    (hjb : j < b.length) :
    (List.zipWith min a b).getD j 0 = min (a.getD j 0) (b.getD j 0) := by
  rw [List.getD_eq_getElem _ _ (by rw [List.length_zipWith]; omega),
    List.getElem_zipWith, List.getD_eq_getElem _ _ hja, List.getD_eq_getElem _ _ hjb]

theorem badgeD2_getD {α : Type} [Inhabited α] (d : α → α → ℚ) (g_x : List α)
    (dl : List ℚ) (i j : ℕ) (hdl : j < dl.length) (hg : j < g_x.length) :
    (badgeD2 d g_x dl i).getD j 0 =
      min (dl.getD j 0) (d (g_x.getD j default) (g_x.getD i default)) *
      min (dl.getD j 0) (d (g_x.getD j default) (g_x.getD i default)) := by
  unfold badgeD2
  rw [getD_sq _ _ (by rw [List.length_zipWith, List.length_map]; omega),
    getD_zipWith_min _ _ _ hdl (by rw [List.length_map]; omega),
    getD_map_fn _ _ _ hg]

theorem badge_inv {α : Type} [Inhabited α] (d : α → α → ℚ) (g_x : List α)
    (draws : ℕ → ℕ) (batch : ℕ)
    (hself : ∀ x, d x x = 0) (hnn : ∀ x y, 0 ≤ d x y)
    (hvalid : validDraws d g_x draws batch) :
    ∀ n, n ≤ batch →
      (∀ m, 1 ≤ m → m ≤ n →
        (badgeRound d g_x (badgeSteps d g_x draws m).2).2 = false) →
      ∀ j ∈ (badgeSteps d g_x draws n).1, (badgeP d g_x draws n).getD j 0 = 0 := by
  intro n
  induction n with
  | zero => intro _ _ j hj; simp [badgeSteps] at hj
  | succ m ih =>
      intro hle hw j hj
      have hwm1 : (badgeRound d g_x (badgeSteps d g_x draws (m + 1)).2).2 = false :=
        hw (m + 1) (by omega) (le_refl _)
      rw [badgeRound_succ, dProbability_single] at hwm1
      by_cases hs : (badgeD2 d g_x (badgeP d g_x draws m) (draws m)).sum = 0
      · rw [if_pos hs] at hwm1
        simp at hwm1
      · have hdm : draws m < g_x.length :=
          validDraws_lt d g_x draws batch hvalid m (by omega)
        have hjlt : j < g_x.length := by
          have hsel := badgeSteps_sel d g_x draws (m + 1)
          rw [hsel] at hj
          simp only [List.mem_map, List.mem_range] at hj
          obtain ⟨k, hk, rfl⟩ := hj
          exact validDraws_lt d g_x draws batch hvalid k (by omega)
        have hP1 : badgeP d g_x draws (m + 1) =
            (badgeD2 d g_x (badgeP d g_x draws m) (draws m)).map
              (fun x => x / (badgeD2 d g_x (badgeP d g_x draws m) (draws m)).sum) := by
          rw [badgeP, badgeRound_succ, dProbability_single, if_neg hs]
        have hD2len : (badgeD2 d g_x (badgeP d g_x draws m) (draws m)).length =
            g_x.length := by
          rw [badgeD2_length, badgeP_length, min_self]
        rw [hP1, getD_div _ _ _ (by rw [hD2len]; exact hjlt),
          badgeD2_getD d g_x _ _ _ (by rw [badgeP_length]; exact hjlt) hjlt]
        have hSm : (badgeSteps d g_x draws (m + 1)).1 =
            (badgeSteps d g_x draws m).1 ++ [draws m] := rfl
        rw [hSm, List.mem_append, List.mem_singleton] at hj
        rcases hj with hj | hj
        · have hzero : (badgeP d g_x draws m).getD j 0 = 0 :=
            ih (by omega) (fun m2 h1 h2 => hw m2 h1 (by omega)) j hj
          rw [hzero, min_eq_left (hnn _ _)]
          simp
        · rw [hj, hself, min_eq_right (badgeP_nonneg d g_x draws m (draws m))]
          simp

/-- C2 amended: the Badge batch loop always produces exactly `batch_size`
entries, each an index into the unlabeled pool (and, mapped through
`unlbld_mapping`, an index of an unlabeled candidate); and whenever no round
after round 0 is randomized, the selected entries are mutually distinct.  A
randomized round, however, draws via `random_state_.choice(len(g_x))`,
uniformly over the whole unlabeled pool including already-selected entries,
and can repeat an index (see the counterexample). -/
theorem badgeBatch_spec {α : Type} [Inhabited α] (d : α → α → ℚ) (g_x : List α)
    (draws : ℕ → ℕ) (unlbldMapping : List ℕ) (batch : ℕ)
    (hself : ∀ x, d x x = 0) (hnn : ∀ x y, 0 ≤ d x y)
    (hvalid : validDraws d g_x draws batch)
    (hmap : unlbldMapping.length = g_x.length) :
    ((badgeSteps d g_x draws batch).1.length = batch) ∧
    (∀ i ∈ (badgeSteps d g_x draws batch).1, i < g_x.length) ∧
    (∀ i ∈ (badgeSteps d g_x draws batch).1,
      unlbldMapping.getD i 0 ∈ unlbldMapping) ∧
    ((∀ m, 1 ≤ m → m < batch →
        (badgeRound d g_x (badgeSteps d g_x draws m).2).2 = false) →
      (badgeSteps d g_x draws batch).1.Nodup) := by
  have hlt : ∀ i ∈ (badgeSteps d g_x draws batch).1, i < g_x.length := by
    intro i hi
    rw [badgeSteps_sel] at hi
    simp only [List.mem_map, List.mem_range] at hi
    obtain ⟨k, hk, rfl⟩ := hi
    exact validDraws_lt d g_x draws batch hvalid k hk
  refine ⟨?_, hlt, ?_, ?_⟩
  · rw [badgeSteps_sel]; simp
  · intro i hi
    have hilt := hlt i hi
    rw [List.getD_eq_getElem _ _ (by omega)]
    exact List.getElem_mem _
  · intro hw
    have key : ∀ n, n ≤ batch → (badgeSteps d g_x draws n).1.Nodup := by
      intro n
      induction n with
      | zero => intro _; simp [badgeSteps]
      | succ m ihm =>
          intro hle
          have hS : (badgeSteps d g_x draws (m + 1)).1 =
              (badgeSteps d g_x draws m).1 ++ [draws m] := rfl
          rw [hS, List.nodup_append]
          refine ⟨ihm (by omega), List.nodup_singleton _, ?_⟩
          intro a ha hb
          rw [List.mem_singleton] at hb
          rcases Nat.eq_zero_or_pos m with hm | hm
          · subst hm
            simp [badgeSteps] at ha
          · have hwm : (badgeRound d g_x (badgeSteps d g_x draws m).2).2 = false :=
              hw m (by omega) (by omega)
            have hpos := (hvalid m (by omega)).2 hwm
            have hzero : (badgeP d g_x draws m).getD a 0 = 0 :=
              badge_inv d g_x draws batch hself hnn hvalid m (by omega)
                (fun m2 h1 h2 => hw m2 h1 (by omega)) a ha
            rw [hb] at hzero
            rw [show (badgeRound d g_x (badgeSteps d g_x draws m).2).1 =
                badgeP d g_x draws m from rfl, hzero] at hpos
            exact absurd hpos (by norm_num)
    exact key batch le_rfl

/-- Witness for the amended C2: one-dimensional embeddings `[0, 2, 3]`, round
0 draws index 0, round 1 is weighted with probabilities `[0, 1/2, 1/2]` and
draws index 1. -/
theorem badgeBatch_spec_witness :
    (badgeSteps ratDist [(0 : ℚ), 2, 3] (fun n => if n = 0 then 0 else 1) 2).1.length = 2 :=
  (badgeBatch_spec ratDist [(0 : ℚ), 2, 3] (fun n => if n = 0 then 0 else 1) [5, 6, 7] 2
    (fun x => by simp [ratDist])
    (fun x y => abs_nonneg _)
    (by
      intro n hn
      interval_cases n
      · exact ⟨fun _ => by norm_num, fun h => absurd h
          (by norm_num [badgeSteps, badgeRound, dProbability, List.replicate])⟩
      · refine ⟨fun h => absurd h ?_, fun _ => ?_⟩
        · norm_num [badgeSteps, badgeRound, dProbability, minDistTo, ratDist,
            List.replicate]
        · norm_num [badgeSteps, badgeRound, dProbability, minDistTo, ratDist,
            List.replicate])
    rfl).1

/-! ## BaggingDelaySimulationWrapper.query: state model

The wrapper's own persisted attributes are `clf_` (re-assigned and fit by
`_validate_clf` on every `_validate_data` call) and `random_state_` (advanced
by `randint` when `clf is None` and by every `multinomial` draw in the
simulation loop).  The wrapped base strategy and its budget manager are
modelled abstractly except for the budget manager's counters, which are the
`FixedBudget` counters embedded above.  The RNG is modelled as a call counter
`rngCalls` together with oracles for the drawn values. -/

/-- The keyword data handed to one `base_query_strategy_.query` call inside
`BaggingDelaySimulationWrapper.query` (a single candidate). -/
structure BaseQueryData where
  XcandRow : List ℚ
  X : List (List ℚ)
  y : List ℚ
  tX : List ℚ
  ty : List ℚ
  tXcandI : ℚ
  tycandI : ℚ
  acquisitions : List Bool
  sampleWeight : Option (List ℚ)
deriving DecidableEq

/-- Modelled from the spec: the wrapped base stream query strategy (its code
is outside the analysed sources).  Its persisted state is `β` (abstract)
paired with the `FixedBudget` counters of its budget manager.  `utilsOf`
gives the utility reported for the single candidate, a function of the data
and the pre-call state; `sampledOf` whether the candidate is in the returned
sample list (the `ForgettingWrapper` appends the candidate's index when that
list is non-empty); `stepState` is the state transition of a `query` call
with the given `simulate` flag; `updateState` the transition of
`update(X_cand, sampled, budget_manager_kwargs=dict(utilities=...))`.  Per
the spec ("simulate=True ... the internal state of the query strategy before
and after the query is the same"), `hSim` states that a simulated query
restores the state. -/
structure BaseStrategy (β : Type) where
  utilsOf : BaseQueryData → β × FixedBudgetState → ℚ
  sampledOf : BaseQueryData → β × FixedBudgetState → Bool
  stepState : BaseQueryData → Bool → β × FixedBudgetState → β × FixedBudgetState
  updateState : List (List ℚ) → List ℚ → List ℚ → β × FixedBudgetState →
    β × FixedBudgetState
  hSim : ∀ q s, stepState q true s = s

/-- The persisted attributes of a `BaggingDelaySimulationWrapper` instance:
the RNG call counter of `random_state_`, the data `clf_` was last fit on
(`none` before the first fit), and the wrapped base strategy's state. -/
structure BaggingWState (β : Type) where
  rngCalls : ℕ
  clfFit : Option (List (List ℚ) × List ℚ × Option (List ℚ))
  base : β × FixedBudgetState

/-- A Python constructor argument as the validators see it: `None`, a value
of the expected type, or a value of a wrong type (Python keyword arguments
are untyped, so `isinstance`/`check_scalar` type failures are
representable). -/
inductive PyParam (τ : Type) where
  | noneVal : PyParam τ
  | val : τ → PyParam τ
  | wrongType : PyParam τ
deriving DecidableEq

/-- The value of a parameter that passed its type check (the code only reads
the parameter after validation succeeded). -/
def PyParam.valD {τ : Type} (p : PyParam τ) (d : τ) : τ :=
  match p with
  | .val v => v
  | _ => d

/-- The constructor arguments of `BaggingDelaySimulationWrapper` relevant to
validation: `K`, `delay_prior`, and whether `clf` was supplied and passes
`sklearn.base.is_classifier`. -/
structure BaggingConfig where
  K : PyParam ℤ
  delayPrior : PyParam ℚ
  clfGiven : Bool
  clfIsClassifier : Bool

/-- The configuration / data errors `_validate_data` of the delay wrappers
can raise (each constructor covers both the `TypeError` and the `ValueError`
of its parameter). -/
inductive CErr where
  | dataErr
  | clfErr
  | delayPriorErr
  | kErr
  | wTrainErr
deriving DecidableEq

/-- Embedding of `BaggingDelaySimulationWrapper._validate_delay_prior`:
skipped when `delay_prior is None`; `check_scalar(self.delay_prior,
"delay_prior", (float, int), min_val=0.0)` raises a `TypeError` on a wrong
type and a `ValueError` below `0`. -/
def validateDelayPrior : PyParam ℚ → Option CErr
  | .noneVal => none
  | .wrongType => some .delayPriorErr
  | .val q => if q < 0 then some .delayPriorErr else none

/-- Embedding of `BaggingDelaySimulationWrapper._validate_K`: skipped when
`K is None`; raises a `TypeError` when `K` is not an `int` and a `ValueError`
when `K <= 0`. -/
def validateK : PyParam ℤ → Option CErr
  | .noneVal => none
  | .wrongType => some .kErr
  | .val k => if k ≤ 0 then some .kErr else none

/-- Embedding of `ForgettingWrapper._validate_w_train`: skipped when
`w_train is None`; raises a `TypeError` when `w_train` is neither `float` nor
`int` and a `ValueError` when `w_train < 0`. -/
def validateWTrain : PyParam ℚ → Option CErr
  | .noneVal => none
  | .wrongType => some .wTrainErr
  | .val w => if w < 0 then some .wTrainErr else none

/-- An invalid `delay_prior` constructor argument: wrong type or negative. -/
def delayPriorBad (p : PyParam ℚ) : Prop :=
  p = .wrongType ∨ ∃ q, p = .val q ∧ q < 0

/-- An invalid `K` constructor argument: not an integer or not positive. -/
def kBad (p : PyParam ℤ) : Prop :=
  p = .wrongType ∨ ∃ k, p = .val k ∧ k ≤ 0

/-- An invalid `w_train` constructor argument: wrong type or negative. -/
def wTrainBad (p : PyParam ℚ) : Prop :=
  p = .wrongType ∨ ∃ w, p = .val w ∧ w < 0

/-- The `query` arguments of the wrapper. -/
structure BaggingInput where
  Xcand : List (List ℚ)
  X : List (List ℚ)
  y : List ℚ
  tX : List ℚ
  ty : List ℚ
  tXcand : List ℚ
  tycand : List ℚ
  acquisitions : List Bool
  sampleWeight : Option (List ℚ)

/-- The length-consistency conditions checked by the inherited data
validation (cf. `delayValidateData`; here with all arrays numeric and 1-D). -/
def BaggingInput.dataOk (inp : BaggingInput) : Bool :=
  (inp.X.length == inp.y.length) && (inp.tX.length == inp.ty.length) &&
  (inp.tXcand.length == inp.tycand.length) &&
  (match inp.sampleWeight with
   | some s => s.length == inp.y.length
   | none => true)

/-- `_validate_delay_prior` followed by `_validate_K`, in the order
`_validate_data` runs them, threading the (unmodified) wrapper state. -/
def baggingValidateTail {β : Type} (cfg : BaggingConfig) (st : BaggingWState β) :
    BaggingWState β × Option CErr :=
  match validateDelayPrior cfg.delayPrior with
  | some e => (st, some e)
  | none =>
      match validateK cfg.K with
      | some e => (st, some e)
      | none => (st, none)

/-- `BaggingDelaySimulationWrapper._validate_data` in order: the inherited
data validation; then `_validate_clf` — which, before any config check on
`delay_prior` or `K`, draws a seed from `random_state_` when `clf is None`,
(re)assigns `clf_` and fits it on `(X, y, sample_weight)` — then
`_validate_delay_prior` and `_validate_K`.  The returned state keeps the
mutations made before an error was raised (Python attribute assignments
survive the exception). -/
def baggingValidate {β : Type} (cfg : BaggingConfig) (inp : BaggingInput)
    (st : BaggingWState β) : BaggingWState β × Option CErr :=
  if ¬ inp.dataOk then (st, some .dataErr)
  else if ¬ cfg.clfGiven then
    baggingValidateTail cfg
      { st with rngCalls := st.rngCalls + 1,
                clfFit := some (inp.X, inp.y, inp.sampleWeight) }
  else if cfg.clfIsClassifier then
    baggingValidateTail cfg
      { st with clfFit := some (inp.X, inp.y, inp.sampleWeight) }
  else (st, some .clfErr)

/-- The number of pending instances `np.sum(map_B_n)`. -/
def nPending (mapB : List Bool) : ℕ := countTrue mapB

/-- numpy fancy assignment `new_y[map_B_n] = y_B_n`: overwrite the masked
positions, in order, with the drawn values. -/
def overwritePending : List ℚ → List Bool → List ℚ → List ℚ
  | [], _, _ => []
  | a :: ys, [], _ => a :: ys
  | a :: ys, b :: bs, vs =>
      if b then vs.headD 0 :: overwritePending ys bs vs.tail
      else a :: overwritePending ys bs vs

/-- The unmodified per-candidate data of the `B`-empty branch. -/
def directQuery (inp : BaggingInput) (i : ℕ) : BaseQueryData :=
  ⟨inp.Xcand.getD i [], inp.X, inp.y, inp.tX, inp.ty,
   inp.tXcand.getD i 0, inp.tycand.getD i 0, inp.acquisitions, inp.sampleWeight⟩

/-- The hypothetical per-candidate data of one simulation iteration: `new_y`
overwrites every pending label with a categorical draw from its probability
row (`labelDraw c p` is the class the `c`-th `multinomial(1, p)` call of
`random_state_` produces), and `new_ty` writes the midpoint scalar at the
pending positions (`newTyBagging`). -/
def hypotheticalQuery (labelDraw : ℕ → List ℚ → ℕ) (probs : List (List ℚ))
    (inp : BaggingInput) (i : ℕ) (mapB : List Bool) (c : ℕ) : BaseQueryData :=
  ⟨inp.Xcand.getD i [], inp.X,
   overwritePending inp.y mapB
     ((List.range (nPending mapB)).map (fun r => ((labelDraw (c + r) (probs.getD r [])) : ℚ))),
   inp.tX, newTyBagging inp.ty inp.tX mapB (inp.tXcand.getD i 0),
   inp.tXcand.getD i 0, inp.tycand.getD i 0, inp.acquisitions, inp.sampleWeight⟩

/-- The `K` simulation iterations for one candidate: each iteration draws one
label per pending instance (advancing the RNG counter by `nPending`), queries
the base strategy in simulate mode on the hypothetical data, and collects the
returned utility. -/
def baggingSimLoop {β : Type} (bs : BaseStrategy β) (labelDraw : ℕ → List ℚ → ℕ)
    (probs : List (List ℚ)) (inp : BaggingInput) (i : ℕ) (mapB : List Bool) :
    ℕ → β × FixedBudgetState → ℕ → List ℚ × ℕ × (β × FixedBudgetState)
  | 0, s, c => ([], c, s)
  | k + 1, s, c =>
      let q := hypotheticalQuery labelDraw probs inp i mapB c
      let u := bs.utilsOf q s
      let s1 := bs.stepState q true s
      let r := baggingSimLoop bs labelDraw probs inp i mapB k s1 (c + nPending mapB)
      (u :: r.1, r.2)

/-- `sum_utilities = np.zeros(self.K)` followed by `sum_utilities +=
utilities[0]` for each simulation iteration: a length-`K` vector to which
every scalar utility is broadcast-added. -/
def sumVecLoop (K : ℕ) (us : List ℚ) : List ℚ :=
  us.foldl (fun acc u => acc.map (fun x => x + u)) (List.replicate K 0)

/-- Processing of one candidate `i` in `BaggingDelaySimulationWrapper.query`:
compute `map_B_n`; when the pending set is non-empty, compute the smoothed
class probabilities (`get_class_probabilities` with the `predict_freq`
collaborator `pf`), run the `K` simulation iterations, broadcast-sum the
utilities into `np.zeros(K)`, divide by `K`, and report entry `[0]`;
otherwise query the base strategy once on unmodified data with the caller's
`simulate` flag.  Returns the reported utility, the base state after the
candidate, and the advanced RNG counter. -/
def baggingCandidate {β : Type} (bs : BaseStrategy β)
    (pf : List (List ℚ) × List ℚ × Option (List ℚ) → List (List ℚ) → List (List ℚ))
    (labelDraw : ℕ → List ℚ → ℕ) (dp : ℚ) (K : ℕ) (inp : BaggingInput)
    (simulate : Bool) (i : ℕ) (s : β × FixedBudgetState) (c : ℕ) :
    ℚ × (β × FixedBudgetState) × ℕ :=
  let mapB := mapBn inp.acquisitions inp.ty (inp.tXcand.getD i 0) (inp.tycand.getD i 0)
  if nPending mapB ≠ 0 then
    let XBn := boolMask mapB inp.X
    let probs := probabilitiesWPrior (pf (inp.X, inp.y, inp.sampleWeight) XBn) dp
    let r := baggingSimLoop bs labelDraw probs inp i mapB K s c
    let avg := ((sumVecLoop K r.1).map (fun x => x / (K : ℚ))).getD 0 0
    (avg, r.2.2, r.2.1)
  else
    (bs.utilsOf (directQuery inp i) s,
     bs.stepState (directQuery inp i) simulate s, c)

/-- The candidate loop of `BaggingDelaySimulationWrapper.query`, threading the
base state and the RNG counter and collecting `avg_utilities` in order. -/
def baggingLoop {β : Type} (bs : BaseStrategy β)
    (pf : List (List ℚ) × List ℚ × Option (List ℚ) → List (List ℚ) → List (List ℚ))
    (labelDraw : ℕ → List ℚ → ℕ) (dp : ℚ) (K : ℕ) (inp : BaggingInput)
    (simulate : Bool) :
    List ℕ → β × FixedBudgetState → ℕ → List ℚ × (β × FixedBudgetState) × ℕ
  | [], s, c => ([], s, c)
  | i :: rest, s, c =>
      let r1 := baggingCandidate bs pf labelDraw dp K inp simulate i s c
      let r2 := baggingLoop bs pf labelDraw dp K inp simulate rest r1.2.1 r1.2.2
      (r1.1 :: r2.1, r2.2)

/-- `sampled = np.zeros(len(X_cand)); sampled[sampled_indices] = 1`. -/
def sampledVec (n : ℕ) (idxs : List ℕ) : List ℚ :=
  (List.range n).map (fun i => if i ∈ idxs then 1 else 0)

/-- The result of a `BaggingDelaySimulationWrapper.query` call: the persisted
wrapper state after the call, the raised error (if any; the state then keeps
the mutations made before the raise), the `sampled_indices` and the
`avg_utilities`. -/
structure BaggingResult (β : Type) where
  state : BaggingWState β
  err : Option CErr
  sampledIndices : List ℕ
  utilities : List ℚ

/-- Embedding of `BaggingDelaySimulationWrapper.query`: `_validate_data`
(raising configuration/data errors after the mutations of `_validate_clf`);
the candidate loop; one `budget_manager_.sample(avg_utilities, simulate=True)`
on the base strategy's `FixedBudget` manager; and — only when `simulate` is
false — the commit `base_query_strategy_.update(X_cand, sampled,
budget_manager_kwargs=dict(utilities=avg_utilities))`. -/
def baggingQuery {β : Type} (bs : BaseStrategy β)
    (pf : List (List ℚ) × List ℚ × Option (List ℚ) → List (List ℚ) → List (List ℚ))
    (labelDraw : ℕ → List ℚ → ℕ) (cfg : BaggingConfig) (inp : BaggingInput)
    (simulate : Bool) (budget : ℚ) (st : BaggingWState β) : BaggingResult β :=
  let v := baggingValidate cfg inp st
  match v.2 with
  | some e => ⟨v.1, some e, [], []⟩
  | none =>
      let dp := cfg.delayPrior.valD 0
      let K := ((cfg.K.valD 0).toNat)
      let r := baggingLoop bs pf labelDraw dp K inp simulate
        (List.range inp.Xcand.length) v.1.base v.1.rngCalls
      let avgUtilities := r.1
      let bres := fixedBudgetSample budget avgUtilities true r.2.1.2
      let base1 := (r.2.1.1, bres.2)
      let sampled := sampledVec inp.Xcand.length bres.1
      let base2 := if simulate then base1
        else bs.updateState inp.Xcand sampled avgUtilities base1
      ⟨⟨r.2.2, v.1.clfFit, base2⟩, none, bres.1, avgUtilities⟩

/-- Embedding of `BaggingDelaySimulationWrapper.update`: delegate to the base
strategy's `update` with the caller's decisions. -/
def baggingUpdate {β : Type} (bs : BaseStrategy β) (Xcand : List (List ℚ))
    (sampled : List ℚ) (utilities : List ℚ) (st : BaggingWState β) :
    BaggingWState β :=
  { st with base := bs.updateState Xcand sampled utilities st.base }

theorem baggingValidateTail_state {β : Type} (cfg : BaggingConfig)
    (st : BaggingWState β) : (baggingValidateTail cfg st).1 = st := by
  unfold baggingValidateTail
  cases validateDelayPrior cfg.delayPrior with
  | some e => rfl
  | none =>
      cases validateK cfg.K with
      | some e => rfl
      | none => rfl

theorem baggingValidate_base {β : Type} (cfg : BaggingConfig) (inp : BaggingInput)
    (st : BaggingWState β) : (baggingValidate cfg inp st).1.base = st.base := by
  unfold baggingValidate
  split
  · rfl
  · split
    · rw [baggingValidateTail_state]
    · split
      · rw [baggingValidateTail_state]
      · rfl

theorem baggingValidate_rng {β : Type} (cfg : BaggingConfig) (inp : BaggingInput)
    (st : BaggingWState β) :
    (baggingValidate cfg inp st).1.rngCalls = st.rngCalls ∨
    (baggingValidate cfg inp st).1.rngCalls = st.rngCalls + 1 := by
  unfold baggingValidate
  split
  · exact Or.inl rfl
  · split
    · rw [baggingValidateTail_state]; exact Or.inr rfl
    · split
      · rw [baggingValidateTail_state]; exact Or.inl rfl
      · exact Or.inl rfl

theorem baggingSimLoop_state {β : Type} (bs : BaseStrategy β)
    (labelDraw : ℕ → List ℚ → ℕ) (probs : List (List ℚ)) (inp : BaggingInput)
    (i : ℕ) (mapB : List Bool) :
    ∀ (K : ℕ) (s : β × FixedBudgetState) (c : ℕ),
      (baggingSimLoop bs labelDraw probs inp i mapB K s c).2.2 = s := by
  intro K
  induction K with
  | zero => intro s c; rfl
  | succ k ih =>
      intro s c
      rw [baggingSimLoop]
      simp only [bs.hSim]
      exact ih s (c + nPending mapB)

theorem baggingCandidate_simTrue_state {β : Type} (bs : BaseStrategy β)
    (pf : List (List ℚ) × List ℚ × Option (List ℚ) → List (List ℚ) → List (List ℚ))
    (labelDraw : ℕ → List ℚ → ℕ) (dp : ℚ) (K : ℕ) (inp : BaggingInput) (i : ℕ)
    (s : β × FixedBudgetState) (c : ℕ) :
    (baggingCandidate bs pf labelDraw dp K inp true i s c).2.1 = s := by
  simp only [baggingCandidate]
  split
  · exact baggingSimLoop_state bs labelDraw _ inp i _ K s c
  · exact bs.hSim _ s

theorem baggingLoop_simTrue_state {β : Type} (bs : BaseStrategy β)
    (pf : List (List ℚ) × List ℚ × Option (List ℚ) → List (List ℚ) → List (List ℚ))
    (labelDraw : ℕ → List ℚ → ℕ) (dp : ℚ) (K : ℕ) (inp : BaggingInput) :
    ∀ (cands : List ℕ) (s : β × FixedBudgetState) (c : ℕ),
      (baggingLoop bs pf labelDraw dp K inp true cands s c).2.1 = s := by
  intro cands
  induction cands with
  | nil => intro s c; rfl
  | cons i rest ih =>
      intro s c
      rw [baggingLoop]
      simp only [baggingCandidate_simTrue_state]
      exact ih s _

/-- C1 amended: a `query` call with `simulate=True` leaves the wrapped base
strategy's state — and in particular its `FixedBudget` budget manager's
counters — identical to the pre-call value: all inner base queries of pending
candidates run in simulate mode, the `B`-empty branch receives the caller's
`simulate=True`, the single `budget_manager_.sample` call runs with
`simulate=True` and restores the counters, and the final commit
(`base_query_strategy_.update`) is skipped.  The wrapper's own persisted
`clf_` and `random_state_`, however, are NOT restored (see the
counterexample), so the original claim's "every persisted attribute" fails. -/
theorem simulateTrue_preserves_base {β : Type} (bs : BaseStrategy β)
    (pf : List (List ℚ) × List ℚ × Option (List ℚ) → List (List ℚ) → List (List ℚ))
    (labelDraw : ℕ → List ℚ → ℕ) (cfg : BaggingConfig) (inp : BaggingInput)
    (budget : ℚ) (st : BaggingWState β) :
    (baggingQuery bs pf labelDraw cfg inp true budget st).state.base = st.base := by
  simp only [baggingQuery]
  cases hv : (baggingValidate cfg inp st).2 with
  | some e => simpa using baggingValidate_base cfg inp st
  | none =>
      simp only [fixedBudgetSample, if_true]
      rw [Prod.mk.eta, baggingLoop_simTrue_state, baggingValidate_base]

/-- A minimal base strategy instance for concrete runs: its abstract state is
a counter that a non-simulated query increments, utilities are constantly 1,
and `update` is the identity. -/
def baseCounting : BaseStrategy ℕ where
  utilsOf := fun _ _ => 1
  sampledOf := fun _ _ => false
  stepState := fun _ sim s => if sim then s else (s.1 + 1, s.2)
  updateState := fun _ _ _ s => s
  hSim := fun _ _ => rfl

/-- A one-candidate input with no acquired instances (the pending set of the
candidate is empty). -/
def cexInput : BaggingInput :=
  ⟨[[1]], [[1]], [1], [0], [0], [1], [2], [false], none⟩

/-- A valid configuration with `clf=None` (so `_validate_clf` draws a seed
from `random_state_` and builds a fresh `PWC`). -/
def cexConfig : BaggingConfig := ⟨.val 2, .val (1/1000), false, false⟩

/-- A trivial `predict_freq` collaborator for concrete runs. -/
def pfConst (_ : List (List ℚ) × List ℚ × Option (List ℚ))
    (xs : List (List ℚ)) : List (List ℚ) := xs.map (fun _ => [1])

/-- A trivial multinomial-draw oracle for concrete runs. -/
def ldConst (_ : ℕ) (_ : List ℚ) : ℕ := 0

/-- C1 counterexample, both halves of the claim.  (1) A `query` call with
`simulate=True` does NOT leave every persisted attribute at its pre-call
value: `_validate_clf` runs unconditionally, so `random_state_` is advanced
(the call counter goes from 0 to 1) and `clf_` is re-assigned and re-fit.
(2) A `simulate=False` call does not produce the same final state as the
identical `simulate=True` call followed by `update` with the same decisions:
the `B`-empty branch passes the caller's `simulate` flag to the inner base
query, so under `simulate=False` that inner query commits to the base
strategy's state (counter 1), while the simulate-then-update sequence leaves
it simulated (counter 0). -/
theorem simulateFrame_cex :
    (baggingQuery baseCounting pfConst ldConst cexConfig cexInput true (1/2)
        (⟨0, none, (0, ⟨0, 0⟩)⟩ : BaggingWState ℕ)).state.rngCalls = 1 ∧
    (baggingQuery baseCounting pfConst ldConst cexConfig cexInput true (1/2)
        (⟨0, none, (0, ⟨0, 0⟩)⟩ : BaggingWState ℕ)).state.clfFit ≠ none ∧
    (baggingUpdate baseCounting cexInput.Xcand
        (sampledVec 1 (baggingQuery baseCounting pfConst ldConst cexConfig cexInput true (1/2)
          (⟨0, none, (0, ⟨0, 0⟩)⟩ : BaggingWState ℕ)).sampledIndices)
        (baggingQuery baseCounting pfConst ldConst cexConfig cexInput true (1/2)
          (⟨0, none, (0, ⟨0, 0⟩)⟩ : BaggingWState ℕ)).utilities
        (baggingQuery baseCounting pfConst ldConst cexConfig cexInput true (1/2)
          (⟨0, none, (0, ⟨0, 0⟩)⟩ : BaggingWState ℕ)).state).base ≠
      (baggingQuery baseCounting pfConst ldConst cexConfig cexInput false (1/2)
        (⟨0, none, (0, ⟨0, 0⟩)⟩ : BaggingWState ℕ)).state.base := by
  have hT : baggingQuery baseCounting pfConst ldConst cexConfig cexInput true (1/2)
      (⟨0, none, (0, ⟨0, 0⟩)⟩ : BaggingWState ℕ) =
      ⟨⟨1, some ([[1]], [1], none), (0, ⟨0, 0⟩)⟩, none, [], [1]⟩ := by
    norm_num [baggingQuery, baggingValidate, baggingValidateTail, validateDelayPrior,
      validateK, PyParam.valD, BaggingInput.dataOk,
      cexConfig, cexInput, baggingLoop, baggingCandidate, baggingSimLoop, nPending,
      countTrue, mapBn, directQuery, baseCounting, fixedBudgetSample, fixedBudgetLoop,
      fixedBudgetFlag, fixedBudgetNext, isBudgetLeft, trueIndices, List.range_succ,
      sampledVec, boolMask]
  have hF : baggingQuery baseCounting pfConst ldConst cexConfig cexInput false (1/2)
      (⟨0, none, (0, ⟨0, 0⟩)⟩ : BaggingWState ℕ) =
      ⟨⟨1, some ([[1]], [1], none), (1, ⟨0, 0⟩)⟩, none, [], [1]⟩ := by
    norm_num [baggingQuery, baggingValidate, baggingValidateTail, validateDelayPrior,
      validateK, PyParam.valD, BaggingInput.dataOk,
      cexConfig, cexInput, baggingLoop, baggingCandidate, baggingSimLoop, nPending,
      countTrue, mapBn, directQuery, baseCounting, fixedBudgetSample, fixedBudgetLoop,
      fixedBudgetFlag, fixedBudgetNext, isBudgetLeft, trueIndices, List.range_succ,
      sampledVec, boolMask, baggingUpdate]
  rw [hT, hF]
  refine ⟨rfl, by simp, ?_⟩
  simp [baggingUpdate, baseCounting]

/-- C7 counterexample: with valid data, `clf=None` and the invalid `K = 0`,
`_validate_data` raises the `K` configuration error — but only AFTER
`_validate_clf` has drawn a seed from `random_state_` (the RNG call counter
advances from 0 to 1) and has re-assigned and fit the persisted `clf_`.  The
failing call is partially applied, contradicting "before any data processing
takes place and before any persisted state of the strategy is modified". -/
theorem validateOrder_cex :
    (baggingValidate ⟨.val 0, .val (1/1000), false, false⟩ cexInput
        (⟨0, none, ((), ⟨0, 0⟩)⟩ : BaggingWState Unit)).2 = some CErr.kErr ∧
    (baggingValidate ⟨.val 0, .val (1/1000), false, false⟩ cexInput
        (⟨0, none, ((), ⟨0, 0⟩)⟩ : BaggingWState Unit)).1.rngCalls = 1 ∧
    (baggingValidate ⟨.val 0, .val (1/1000), false, false⟩ cexInput
        (⟨0, none, ((), ⟨0, 0⟩)⟩ : BaggingWState Unit)).1.clfFit =
      some ([[1]], [1], none) := by
  refine ⟨?_, ?_, ?_⟩ <;>
    norm_num [baggingValidate, baggingValidateTail, validateDelayPrior, validateK,
      BaggingInput.dataOk, cexInput]

theorem baggingValidate_err_of_tail {β : Type} (cfg : BaggingConfig)
    (inp : BaggingInput) (st : BaggingWState β)
    (hdata : inp.dataOk = true)
    (hclf : cfg.clfGiven = false ∨ cfg.clfIsClassifier = true) :
    ∃ st1 : BaggingWState β, baggingValidate cfg inp st = baggingValidateTail cfg st1 ∧
      st1.base = st.base ∧ st1.clfFit = some (inp.X, inp.y, inp.sampleWeight) := by
  rcases hclf with hclf | hclf
  · refine ⟨⟨st.rngCalls + 1, some (inp.X, inp.y, inp.sampleWeight), st.base⟩,
      ?_, rfl, rfl⟩
    rw [baggingValidate, if_neg (by simp [hdata]), if_pos (by simp [hclf])]
  · by_cases hg : cfg.clfGiven = false
    · refine ⟨⟨st.rngCalls + 1, some (inp.X, inp.y, inp.sampleWeight), st.base⟩,
        ?_, rfl, rfl⟩
      rw [baggingValidate, if_neg (by simp [hdata]), if_pos (by simp [hg])]
    · have hg2 : cfg.clfGiven = true := by
        cases h2 : cfg.clfGiven
        · exact absurd h2 hg
        · rfl
      refine ⟨⟨st.rngCalls, some (inp.X, inp.y, inp.sampleWeight), st.base⟩,
        ?_, rfl, rfl⟩
      rw [baggingValidate, if_neg (by simp [hdata]), if_neg (by simp [hg2]),
        if_pos (by simp [hclf])]

theorem validateDelayPrior_bad (p : PyParam ℚ) (h : delayPriorBad p) :
    validateDelayPrior p = some CErr.delayPriorErr := by
  rcases h with h | ⟨q, hq, hqneg⟩
  · rw [h]; rfl
  · rw [hq, validateDelayPrior, if_pos hqneg]

theorem validateDelayPrior_ok (p : PyParam ℚ) (h : ¬ delayPriorBad p) :
    validateDelayPrior p = none := by
  cases p with
  | noneVal => rfl
  | wrongType => exact absurd (Or.inl rfl) h
  | val q =>
      rw [validateDelayPrior, if_neg]
      intro hneg
      exact h (Or.inr ⟨q, rfl, hneg⟩)

theorem validateK_bad (p : PyParam ℤ) (h : kBad p) :
    validateK p = some CErr.kErr := by
  rcases h with h | ⟨k, hk, hkle⟩
  · rw [h]; rfl
  · rw [hk, validateK, if_pos hkle]

theorem validateWTrain_bad (p : PyParam ℚ) (h : wTrainBad p) :
    validateWTrain p = some CErr.wTrainErr := by
  rcases h with h | ⟨w, hw, hwneg⟩
  · rw [h]; rfl
  · rw [hw, validateWTrain, if_pos hwneg]

theorem baggingValidateTail_err {β : Type} (cfg : BaggingConfig)
    (st : BaggingWState β)
    (herr : delayPriorBad cfg.delayPrior ∨
      (¬ delayPriorBad cfg.delayPrior ∧ kBad cfg.K)) :
    (baggingValidateTail cfg st).2 ≠ none ∧ (baggingValidateTail cfg st).1 = st := by
  rcases herr with hd | ⟨hd, hk⟩
  · rw [baggingValidateTail, validateDelayPrior_bad _ hd]
    exact ⟨by simp, rfl⟩
  · rw [baggingValidateTail, validateDelayPrior_ok _ hd, validateK_bad _ hk]
    exact ⟨by simp, rfl⟩

/-! ## ForgettingWrapper.query: state model

`ForgettingWrapper` holds no counters of its own; its `query` validates the
data, then `_validate_w_train`, and only then runs the per-candidate loop that
delegates to the wrapped base strategy on the restricted window view
(cf. `forgettingView`), with the caller's `simulate` flag. -/

/-- The result of a `ForgettingWrapper.query` call: the raised error (if
any), the collected `sampled_indices` and `utilities`, and the wrapped base
strategy's state after the call. -/
structure ForgettingResult (β : Type) where
  err : Option CErr
  sampledIndices : List ℕ
  utilities : List ℚ
  base : β × FixedBudgetState

/-- The candidate loop of `ForgettingWrapper.query`: for each candidate `i`
build the window view `A_n_*` keyed to `ty_cand[i]`, query the base strategy
on it (single candidate, with the caller's `simulate` flag), append `i` to
`sampled_indices` when the returned sample list is non-empty, and collect the
utility. -/
def forgettingLoop {β : Type} (bs : BaseStrategy β) (w : ℚ) (inp : BaggingInput)
    (simulate : Bool) :
    List ℕ → β × FixedBudgetState → List ℕ × List ℚ × (β × FixedBudgetState)
  | [], s => ([], [], s)
  | i :: rest, s =>
      let fv := forgettingView inp.X inp.y inp.tX inp.ty inp.acquisitions
        inp.sampleWeight w (inp.tycand.getD i 0)
      let q : BaseQueryData := ⟨inp.Xcand.getD i [], fv.AX, fv.Ay, fv.AtX, fv.Aty,
        inp.tXcand.getD i 0, inp.tycand.getD i 0, fv.Aacq, fv.Asw⟩
      let s1 := bs.stepState q simulate s
      let r := forgettingLoop bs w inp simulate rest s1
      ((if bs.sampledOf q s then [i] else []) ++ r.1, bs.utilsOf q s :: r.2.1, r.2.2)

/-- Embedding of `ForgettingWrapper.query`: the inherited data validation,
then `_validate_w_train` — both before the candidate loop — then the loop.
An error leaves the base strategy's state untouched and produces no indices
or utilities. -/
def forgettingQuery {β : Type} (bs : BaseStrategy β) (wTrain : PyParam ℚ)
    (inp : BaggingInput) (simulate : Bool) (s : β × FixedBudgetState) :
    ForgettingResult β :=
  if ¬ inp.dataOk then ⟨some .dataErr, [], [], s⟩
  else
    match validateWTrain wTrain with
    | some e => ⟨some e, [], [], s⟩
    | none =>
        let r := forgettingLoop bs (wTrain.valD 0) inp simulate
          (List.range inp.Xcand.length) s
        ⟨none, r.1, r.2.1, r.2.2⟩

/-- C7 amended: for every query call on a delay wrapper with an invalid
configuration — `w_train` of wrong type or negative (ForgettingWrapper), `K`
not an integer or not positive, `delay_prior` of wrong type or negative, or
an invalid classifier (BaggingDelaySimulationWrapper) — the call raises a
configuration error synchronously during `_validate_data`, before any
candidate is processed and before the wrapped base strategy's state or its
budget manager's counters are modified, and returns no indices or utilities.
It is NOT raised before every persisted mutation, however: for a
`delay_prior` or `K` error, `_validate_clf` has already re-assigned and fit
`clf_` (and advanced `random_state_` when `clf is None`); the
invalid-classifier error itself is raised inside `_validate_clf` before
`clf_` is assigned, leaving the state fully unchanged, and the `w_train`
error precedes the ForgettingWrapper loop. -/
theorem validateOrder_spec {β β2 : Type} (bs : BaseStrategy β) (bsF : BaseStrategy β2)
    (pf : List (List ℚ) × List ℚ × Option (List ℚ) → List (List ℚ) → List (List ℚ))
    (labelDraw : ℕ → List ℚ → ℕ) (cfg : BaggingConfig) (wTrain : PyParam ℚ)
    (inp : BaggingInput) (simulate : Bool) (budget : ℚ) (st : BaggingWState β)
    (sF : β2 × FixedBudgetState)
    (hdata : inp.dataOk = true) :
    ((cfg.clfGiven = false ∨ cfg.clfIsClassifier = true) →
      (delayPriorBad cfg.delayPrior ∨
        (¬ delayPriorBad cfg.delayPrior ∧ kBad cfg.K)) →
      (baggingQuery bs pf labelDraw cfg inp simulate budget st).err ≠ none ∧
      (baggingQuery bs pf labelDraw cfg inp simulate budget st).state.base = st.base ∧
      (baggingQuery bs pf labelDraw cfg inp simulate budget st).state.clfFit =
        some (inp.X, inp.y, inp.sampleWeight) ∧
      (baggingQuery bs pf labelDraw cfg inp simulate budget st).sampledIndices = [] ∧
      (baggingQuery bs pf labelDraw cfg inp simulate budget st).utilities = []) ∧
    (cfg.clfGiven = true → cfg.clfIsClassifier = false →
      (baggingQuery bs pf labelDraw cfg inp simulate budget st).err =
        some CErr.clfErr ∧
      (baggingQuery bs pf labelDraw cfg inp simulate budget st).state = st ∧
      (baggingQuery bs pf labelDraw cfg inp simulate budget st).sampledIndices = [] ∧
      (baggingQuery bs pf labelDraw cfg inp simulate budget st).utilities = []) ∧
    (wTrainBad wTrain →
      (forgettingQuery bsF wTrain inp simulate sF).err = some CErr.wTrainErr ∧
      (forgettingQuery bsF wTrain inp simulate sF).base = sF ∧
      (forgettingQuery bsF wTrain inp simulate sF).sampledIndices = [] ∧
      (forgettingQuery bsF wTrain inp simulate sF).utilities = []) := by
  refine ⟨?_, ?_, ?_⟩
  · intro hclf herr
    obtain ⟨st1, heq, hbase, hclfFit⟩ :=
      baggingValidate_err_of_tail cfg inp st hdata hclf
    obtain ⟨hne, hst⟩ := baggingValidateTail_err cfg st1 herr
    obtain ⟨e, he⟩ := Option.ne_none_iff_exists.mp hne
    have hv2 : (baggingValidate cfg inp st).2 = some e := by rw [heq, ← he]
    have hv1 : (baggingValidate cfg inp st).1 = st1 := by rw [heq, hst]
    have hQ : baggingQuery bs pf labelDraw cfg inp simulate budget st =
        ⟨(baggingValidate cfg inp st).1, some e, [], []⟩ := by
      simp only [baggingQuery, hv2]
    rw [hQ]
    exact ⟨by simp, by rw [hv1, hbase], by rw [hv1, hclfFit], rfl, rfl⟩
  · intro hg hic
    have hval : baggingValidate cfg inp st = (st, some CErr.clfErr) := by
      rw [baggingValidate, if_neg (by simp [hdata]), if_neg (by simp [hg]),
        if_neg (by simp [hic])]
    have hQ : baggingQuery bs pf labelDraw cfg inp simulate budget st =
        ⟨st, some CErr.clfErr, [], []⟩ := by
      simp only [baggingQuery, hval]
    rw [hQ]
    exact ⟨rfl, rfl, rfl, rfl⟩
  · intro hw
    have hF : forgettingQuery bsF wTrain inp simulate sF =
        ⟨some CErr.wTrainErr, [], [], sF⟩ := by
      rw [forgettingQuery, if_neg (by simp [hdata]), validateWTrain_bad _ hw]
    rw [hF]
    exact ⟨rfl, rfl, rfl, rfl⟩

/-- Witness for the amended C7: the `K = 0` configuration for the bagging
wrapper and a negative `w_train` for the forgetting wrapper, at the concrete
one-candidate input. -/
theorem validateOrder_spec_witness :
    (baggingQuery baseCounting pfConst ldConst ⟨.val 0, .val (1/1000), false, false⟩
        cexInput false (1/2) (⟨0, none, (0, ⟨0, 0⟩)⟩ : BaggingWState ℕ)).err ≠ none ∧
    (forgettingQuery baseCounting (.val (-1)) cexInput false
        ((0 : ℕ), ⟨0, 0⟩)).err = some CErr.wTrainErr := by
  have hdp : ¬ delayPriorBad (.val (1/1000)) := by
    rintro (h | ⟨q, hq, hqneg⟩)
    · exact PyParam.noConfusion h
    · rw [PyParam.val.injEq] at hq
      rw [← hq] at hqneg
      norm_num at hqneg
  have hmain := validateOrder_spec baseCounting baseCounting pfConst ldConst
    ⟨.val 0, .val (1/1000), false, false⟩ (.val (-1)) cexInput false (1/2)
    ⟨0, none, (0, ⟨0, 0⟩)⟩ ((0 : ℕ), ⟨0, 0⟩)
    (by norm_num [BaggingInput.dataOk, cexInput])
  exact ⟨(hmain.1 (Or.inl rfl) (Or.inr ⟨hdp, Or.inr ⟨0, rfl, le_refl 0⟩⟩)).1,
    (hmain.2.2 (Or.inr ⟨-1, rfl, by norm_num⟩)).1⟩

theorem baggingSimLoop_closed {β : Type} (bs : BaseStrategy β)
    (labelDraw : ℕ → List ℚ → ℕ) (probs : List (List ℚ)) (inp : BaggingInput)
    (i : ℕ) (mapB : List Bool) :
    ∀ (K : ℕ) (s : β × FixedBudgetState) (c : ℕ),
      (baggingSimLoop bs labelDraw probs inp i mapB K s c).1 =
        (List.range K).map (fun k =>
          bs.utilsOf (hypotheticalQuery labelDraw probs inp i mapB
            (c + k * nPending mapB)) s) := by
  intro K
  induction K with
  | zero => intro s c; simp [baggingSimLoop]
  | succ k ih =>
      intro s c
      rw [baggingSimLoop]
      simp only [bs.hSim]
      rw [ih s (c + nPending mapB)]
      rw [List.range_succ_eq_map, List.map_cons, List.map_map]
      congr 1
      · rw [Nat.zero_mul, Nat.add_zero]
      · apply List.map_congr_left
        intro k2 _
        simp only [Function.comp]
        congr 2
        rw [Nat.succ_mul]
        omega

theorem sumVecLoop_replicate (K : ℕ) :
    ∀ (us : List ℚ) (a : ℚ),
      us.foldl (fun acc u => acc.map (fun x => x + u)) (List.replicate K a) =
        List.replicate K (a + us.sum) := by
  intro us
  induction us with
  | nil => intro a; simp
  | cons u rest ih =>
      intro a
      rw [List.foldl_cons, List.map_replicate, ih (a + u)]
      rw [List.sum_cons]
      ring_nf

theorem sumVec_avg (K : ℕ) (hK : 1 ≤ K) (us : List ℚ) :
    ((sumVecLoop K us).map (fun x => x / (K : ℚ))).getD 0 0 = us.sum / K := by
  rw [sumVecLoop, sumVecLoop_replicate K us 0, zero_add, List.map_replicate]
  rw [List.getD_eq_getElem _ _ (by simp; omega), List.getElem_replicate]

/-- C4: for every candidate `i` of `BaggingDelaySimulationWrapper.query` with
base state `s` and RNG position `c`: when the pending set `B` (the mask
`acquisitions ∧ tX_cand[i] ≤ ty < ty_cand[i]`) is empty, the reported utility
is exactly the base strategy's utility on the unmodified data; when `B` is
non-empty, it is the arithmetic mean of `K` utilities, the `k`-th obtained
from a simulate-mode base query (all from the same base state `s`, since
simulated queries restore it) on the hypothetical training set whose pending
labels are the categorical draws of iteration `k` from the smoothed class
probabilities. -/
theorem baggingUtility_spec {β : Type} (bs : BaseStrategy β)
    (pf : List (List ℚ) × List ℚ × Option (List ℚ) → List (List ℚ) → List (List ℚ))
    (labelDraw : ℕ → List ℚ → ℕ) (dp : ℚ) (K : ℕ) (hK : 1 ≤ K)
    (inp : BaggingInput) (simulate : Bool) (i : ℕ) (s : β × FixedBudgetState)
    (c : ℕ) :
    (nPending (mapBn inp.acquisitions inp.ty (inp.tXcand.getD i 0)
        (inp.tycand.getD i 0)) = 0 →
      (baggingCandidate bs pf labelDraw dp K inp simulate i s c).1 =
        bs.utilsOf (directQuery inp i) s) ∧
    (nPending (mapBn inp.acquisitions inp.ty (inp.tXcand.getD i 0)
        (inp.tycand.getD i 0)) ≠ 0 →
      (baggingCandidate bs pf labelDraw dp K inp simulate i s c).1 =
        ((List.range K).map (fun k =>
          bs.utilsOf (hypotheticalQuery labelDraw
            (probabilitiesWPrior (pf (inp.X, inp.y, inp.sampleWeight)
              (boolMask (mapBn inp.acquisitions inp.ty (inp.tXcand.getD i 0)
                (inp.tycand.getD i 0)) inp.X)) dp)
            inp i
            (mapBn inp.acquisitions inp.ty (inp.tXcand.getD i 0) (inp.tycand.getD i 0))
            (c + k * nPending (mapBn inp.acquisitions inp.ty (inp.tXcand.getD i 0)
              (inp.tycand.getD i 0)))) s)).sum / K) := by
  constructor
  · intro h0
    simp only [baggingCandidate, h0, ne_eq, not_true_eq_false, if_false]
  · intro hne
    simp only [baggingCandidate, ne_eq, hne, not_false_eq_true, if_true]
    rw [baggingSimLoop_closed, sumVec_avg K hK]

/-- Witness for C4: the `B`-empty branch at the concrete one-candidate input
with no acquisitions. -/
theorem baggingUtility_spec_witness :
    (baggingCandidate baseCounting pfConst ldConst (1/1000) 1 cexInput false 0
        ((0 : ℕ), ⟨0, 0⟩) 0).1 =
      baseCounting.utilsOf (directQuery cexInput 0) ((0 : ℕ), ⟨0, 0⟩) :=
  (baggingUtility_spec baseCounting pfConst ldConst (1/1000) 1 (le_refl 1)
    cexInput false 0 ((0 : ℕ), ⟨0, 0⟩) 0).1
    (by norm_num [cexInput, mapBn, nPending, countTrue])

end Skactiveml
